import Mathlib

/-!
# geofence-updater-lite: a verification of the core against its specification

This file embeds the core data model and operations of the
`geofence-updater-lite` repository (Go) shallowly in Lean: pure Go
functions become Lean functions over `Nat`/`Int`/`Rat` and `List Nat`
byte strings, the SQLite-backed store becomes an explicit state type
with transactional operations, and fallible Go code returns `Except`.
External primitives that cannot be embedded exactly — Ed25519 and the
Haversine great-circle distance (transcendental floating point), and
the JSON decoders of the Go standard library — are passed as explicit
parameters where the embedded code calls them; SHA-256 is implemented
concretely.  Theorems at the end settle the claims of the
specification against these definitions.
-/

set_option maxRecDepth 10000

deriving instance DecidableEq for Except

namespace GUL

/-! ## Byte-string helpers (Go `[]byte` as `List Nat`, each element < 256) -/

/-- Little-endian decoding of the first four bytes, as in
`binary.LittleEndian.Uint32(b[0:4])`. -/
def le32 : List Nat → Nat
  | b0 :: b1 :: b2 :: b3 :: _ => b0 + 256 * b1 + 65536 * b2 + 16777216 * b3
  | _ => 0

/-- Little-endian encoding of a `uint32` value (as in `binary.Write` with
`binary.LittleEndian` of `uint32(n)`): four bytes, value taken mod 2^32. -/
def u32le (n : Nat) : List Nat :=
  [n % 256, n / 256 % 256, n / 65536 % 256, n / 16777216 % 256]

theorem le32_u32le (n : Nat) (h : n < 4294967296) : le32 (u32le n) = n := by
  simp only [u32le, le32]
  omega

theorem u32le_length (n : Nat) : (u32le n).length = 4 := rfl

/-! ## SHA-256 (FIPS 180-4), over byte lists, with `Nat` word arithmetic

The Go code uses `crypto/sha256` for leaf/node hashing, content-integrity
hashes and key ids.  Words are 32-bit: every operation is reduced
`% 2^32` where Go wraps. -/

namespace Sha256

/-- The 64 SHA-256 round constants (FIPS 180-4 §4.2.2, in decimal). -/
def K : List Nat :=
  [1116352408, 1899447441, 3049323471, 3921009573, 961987163, 1508970993,
   2453635748, 2870763221, 3624381080, 310598401, 607225278, 1426881987,
   1925078388, 2162078206, 2614888103, 3248222580, 3835390401, 4022224774,
   264347078, 604807628, 770255983, 1249150122, 1555081692, 1996064986,
   2554220882, 2821834349, 2952996808, 3210313671, 3336571891, 3584528711,
   113926993, 338241895, 666307205, 773529912, 1294757372, 1396182291,
   1695183700, 1986661051, 2177026350, 2456956037, 2730485921, 2820302411,
   3259730800, 3345764771, 3516065817, 3600352804, 4094571909, 275423344,
   430227734, 506948616, 659060556, 883997877, 958139571, 1322822218,
   1537002063, 1747873779, 1955562222, 2024104815, 2227730452, 2361852424,
   2428436474, 2756734187, 3204031479, 3329325298]

/-- Right-rotation of a 32-bit word. -/
def rotr (n x : Nat) : Nat := (x >>> n ||| x <<< (32 - n)) % 4294967296

/-- Bitwise complement of a 32-bit word. -/
def comp32 (x : Nat) : Nat := 4294967295 - x % 4294967296

def ch (x y z : Nat) : Nat := (x &&& y) ^^^ (comp32 x &&& z)

def maj (x y z : Nat) : Nat := (x &&& y) ^^^ (x &&& z) ^^^ (y &&& z)

def bsig0 (x : Nat) : Nat := rotr 2 x ^^^ rotr 13 x ^^^ rotr 22 x

def bsig1 (x : Nat) : Nat := rotr 6 x ^^^ rotr 11 x ^^^ rotr 25 x

def ssig0 (x : Nat) : Nat := rotr 7 x ^^^ rotr 18 x ^^^ (x >>> 3)

def ssig1 (x : Nat) : Nat := rotr 17 x ^^^ rotr 19 x ^^^ (x >>> 10)

/-- Big-endian 8-byte encoding (for the trailing bit-length). -/
def u64be (x : Nat) : List Nat :=
  [x / 2 ^ 56 % 256, x / 2 ^ 48 % 256, x / 2 ^ 40 % 256, x / 2 ^ 32 % 256,
   x / 2 ^ 24 % 256, x / 2 ^ 16 % 256, x / 2 ^ 8 % 256, x % 256]

/-- Big-endian 4-byte encoding of a word for digest output. -/
def u32be (x : Nat) : List Nat :=
  [x / 2 ^ 24 % 256, x / 2 ^ 16 % 256, x / 2 ^ 8 % 256, x % 256]

/-- Message padding: append `0x80`, zeros to 56 mod 64, then the 64-bit
big-endian bit length. -/
def pad (msg : List Nat) : List Nat :=
  msg ++ 0x80 :: List.replicate ((119 - msg.length % 64) % 64) 0 ++ u64be (8 * msg.length)

/-- Four big-endian bytes to one word. -/
def word : List Nat → Nat
  | b0 :: b1 :: b2 :: b3 :: _ => ((b0 * 256 + b1) * 256 + b2) * 256 + b3
  | _ => 0

/-- The sixteen words of one 64-byte block. -/
def blockWords (blk : List Nat) : List Nat :=
  (List.range 16).map fun i => word (blk.drop (4 * i))

/-- Extend sixteen schedule words to sixty-four. -/
def schedule (fuel : Nat) (w : List Nat) : List Nat :=
  match fuel with
  | 0 => w
  | fuel + 1 =>
    let n := w.length
    schedule fuel (w ++ [(ssig1 (w.getD (n - 2) 0) + w.getD (n - 7) 0 +
      ssig0 (w.getD (n - 15) 0) + w.getD (n - 16) 0) % 4294967296])

/-- One compression round. -/
def round (st : List Nat) (ki wi : Nat) : List Nat :=
  match st with
  | [a, b, c, d, e, f, g, h] =>
    let t1 := (h + bsig1 e + ch e f g + ki + wi) % 4294967296
    let t2 := (bsig0 a + maj a b c) % 4294967296
    [(t1 + t2) % 4294967296, a, b, c, (d + t1) % 4294967296, e, f, g]
  | st => st

/-- Compress one 64-byte block into the running state. -/
def compress (st : List Nat) (blk : List Nat) : List Nat :=
  let w := schedule 48 (blockWords blk)
  let out := (List.zip K w).foldl (fun s kw => round s kw.1 kw.2) st
  (List.zip st out).map fun p => (p.1 + p.2) % 4294967296

/-- Fold the compression over consecutive 64-byte blocks. -/
def blocksLoop (fuel : Nat) (st : List Nat) (rest : List Nat) : List Nat :=
  match fuel with
  | 0 => st
  | fuel + 1 =>
    match rest with
    | [] => st
    | rest => blocksLoop fuel (compress st (rest.take 64)) (rest.drop 64)

end Sha256

/-- SHA-256 of a byte list: the 32 digest bytes.  This is the concrete
embedding of `crypto/sha256` used throughout the Go sources. -/
def sha256 (msg : List Nat) : List Nat :=
  let padded := Sha256.pad msg
  let final := Sha256.blocksLoop (padded.length / 64)
    [1779033703, 3144134277, 1013904242, 2773480762,
     1359893119, 2600822924, 528734635, 1541459225] padded
  final.flatMap Sha256.u32be

/-- `crypto.VerifyHash`: recompute SHA-256 of the data and compare with the
expected digest (`bytes.Equal`). -/
def verifyHash (data expected : List Nat) : Bool :=
  sha256 data = expected

/-! ## Fence and geometry model (`pkg/geofence/types.go`, `fence.go`)

Go `float64` coordinates are embedded as `Rat`: every geometric predicate
the claims exercise is a chain of comparisons, multiplications and
divisions, transcribed term for term; IEEE-754 rounding is not modelled.
The Haversine great-circle distance calls `math.Sin`/`Cos`/`Atan2`/`Sqrt`
and is passed as an explicit parameter `hav` wherever the source calls it. -/

/-- `geofence.Point` (WGS84 coordinate, degrees). -/
structure Point where
  lat : Rat
  lon : Rat
  deriving DecidableEq, Repr

/-- `geofence.BoundingBox`. -/
structure BoundingBox where
  minLat : Rat
  minLon : Rat
  maxLat : Rat
  maxLon : Rat
  deriving DecidableEq, Repr

/-- `BoundingBox.Contains`. -/
def bboxContains (b : BoundingBox) (p : Point) : Bool :=
  b.minLat ≤ p.lat ∧ p.lat ≤ b.maxLat ∧ b.minLon ≤ p.lon ∧ p.lon ≤ b.maxLon

/-- `geofence.Geometry`: one-of polygon / circle / bbox, kept as the same
product of optional fields the Go struct uses. -/
structure Geometry where
  polygon : List Point := []
  circleCenter : Option Point := none
  circleRadius : Rat := 0
  bbox : Option BoundingBox := none
  deriving DecidableEq, Repr

/-- Fence type constants (`geofence.FenceType`, an `int32`). -/
def fenceTypeUnknown : Int := 0
def fenceTypeTempRestriction : Int := 1
def fenceTypePermanentNoFly : Int := 2
def fenceTypeAltitudeLimit : Int := 3
def fenceTypeAltitudeMinimum : Int := 4
def fenceTypeSpeedLimit : Int := 5

/-- `geofence.FenceItem`.  `Signature []byte` is a byte list (`[]` standing
for Go `nil`). -/
structure FenceItem where
  id : String
  type : Int := 0
  geometry : Geometry := {}
  startTS : Int := 0
  endTS : Int := 0
  priority : Nat := 0
  maxAltitude : Nat := 0
  maxSpeed : Nat := 0
  name : String := ""
  description : String := ""
  signature : List Nat := []
  keyID : String := ""
  deriving DecidableEq, Repr

/-- `geofence.FenceCollection`. -/
structure FenceCollection where
  items : List FenceItem
  createdTS : Int := 0
  version : String := ""
  deriving DecidableEq, Repr

/-- `geofence.FenceDelta`. -/
structure FenceDelta where
  added : List FenceItem := []
  removedIDs : List String := []
  updated : List FenceItem := []
  deriving DecidableEq, Repr

/-- `geofence.Manifest`. -/
structure Manifest where
  version : Nat := 0
  timestamp : Int := 0
  rootHash : List Nat := []
  deltaURL : String := ""
  snapshotURL : String := ""
  deltaSize : Nat := 0
  snapshotSize : Nat := 0
  deltaHash : List Nat := []
  snapshotHash : List Nat := []
  minClientV : Nat := 0
  message : String := ""
  signature : List Nat := []
  keyID : String := ""
  deriving DecidableEq, Repr

/-- One iteration of the ray-casting loop in `pointInPolygon`: `vi` is the
current vertex, `vj` the previous one. -/
def pipStep (p : Point) (inside : Bool) (vi vj : Point) : Bool :=
  if (decide (vi.lon > p.lon) ≠ decide (vj.lon > p.lon)) ∧
      p.lat < (vj.lat - vi.lat) * (p.lon - vi.lon) / (vj.lon - vi.lon + 1 / 10000000000) + vi.lat
  then !inside else inside

/-- `geofence.pointInPolygon`: even-odd ray casting; the Go loop pairs
`polygon[i]` with `polygon[i-1 mod n]`, which is the zip of the list with
its rotation right by one. -/
def pointInPolygon (p : Point) (poly : List Point) : Bool :=
  if poly.length < 3 then false
  else (poly.zip (poly.rotate (poly.length - 1))).foldl
    (fun inside vv => pipStep p inside vv.1 vv.2) false

/-- `Geometry.ContainsPoint`; the branch order (bbox, polygon, circle) is
the source's.  `hav` stands for `haversineDistance`. -/
def containsPoint (hav : Point → Point → Rat) (g : Geometry) (p : Point) : Bool :=
  match g.bbox with
  | some b => bboxContains b p
  | none =>
    if g.polygon.length > 0 then pointInPolygon p g.polygon
    else match g.circleCenter with
      | some c => hav p c ≤ g.circleRadius
      | none => false

/-- `FenceItem.IsActiveAt` at Unix time `ts`. -/
def isActiveAt (f : FenceItem) (ts : Int) : Bool :=
  if ts < f.startTS then false
  else if f.endTS > 0 ∧ ts > f.endTS then false
  else true

/-- `geofence.cosDegrees`: the polynomial small-angle approximation the
source uses (exact rational arithmetic; the decimal constant is the Go
literal). -/
def cosDegrees (deg : Rat) : Rat :=
  let rad := deg * (0.017453292519943295 : Rat)
  let x := rad * rad
  1 - x / 2 + x * x / 24

/-- `geofence.boundsFromPoints`. -/
def boundsFromPoints (points : List Point) : BoundingBox :=
  match points with
  | [] => ⟨0, 0, 0, 0⟩
  | p0 :: rest =>
    rest.foldl (fun b p =>
      { b with
        minLat := if p.lat < b.minLat then p.lat else b.minLat
        maxLat := if p.lat > b.maxLat then p.lat else b.maxLat
        minLon := if p.lon < b.minLon then p.lon else b.minLon
        maxLon := if p.lon > b.maxLon then p.lon else b.maxLon })
      ⟨p0.lat, p0.lon, p0.lat, p0.lon⟩

/-- `FenceItem.GetBounds`. -/
def getBounds (f : FenceItem) : BoundingBox :=
  match f.geometry.bbox with
  | some b => b
  | none =>
    if f.geometry.polygon.length > 0 then boundsFromPoints f.geometry.polygon
    else match f.geometry.circleCenter with
      | some c =>
        let latDelta := f.geometry.circleRadius / 111000
        let lonDelta := f.geometry.circleRadius / 111000 / cosDegrees c.lat
        ⟨c.lat - latDelta, c.lon - lonDelta, c.lat + latDelta, c.lon + lonDelta⟩
      | none => ⟨0, 0, 0, 0⟩

/-! ## JSON encodings (`encoding/json` on the Go structs)

The Go sources serialize with `encoding/json`; for a struct that is the
fields in declaration order under their tags.  The encoders below fix
that canonical form.  Caveats, stated once: strings used by every
concrete instance in this file are plain ASCII without quotes,
backslashes or HTML characters, so no escaping is modelled; `[]byte`
encodes as base64 with Go `nil` (`[]` here) encoding as `null`;
non-integral coordinates never occur in the instances, so float
formatting questions do not arise. -/

/-- JSON string literal (instances use escape-free ASCII). -/
def jsonString (s : String) : String := "\"" ++ s ++ "\""

/-- A Go `float64` JSON number: integral rationals print like Go integral
floats do. -/
def ratJSON (q : Rat) : String :=
  if q.den = 1 then toString q.num else toString q.num ++ "/" ++ toString q.den

def b64alphabet : List Char :=
  "ABCDEFGHIJKLMNOPQRSTUVWXYZabcdefghijklmnopqrstuvwxyz0123456789+/".toList

def b64c (n : Nat) : Char := b64alphabet.getD n 'A'

/-- Standard base64 of a byte list. -/
def b64 : List Nat → String
  | [] => ""
  | [a] => String.mk [b64c (a / 4), b64c (a % 4 * 16), '=', '=']
  | [a, b] => String.mk [b64c (a / 4), b64c (a % 4 * 16 + b / 16), b64c (b % 16 * 4), '=']
  | a :: b :: c :: rest =>
    String.mk [b64c (a / 4), b64c (a % 4 * 16 + b / 16), b64c (b % 16 * 4 + c / 64), b64c (c % 64)]
      ++ b64 rest

/-- A `[]byte` field: base64 string, or `null` for Go `nil`. -/
def bytesJSON (bs : List Nat) : String :=
  if bs.length = 0 then "null" else jsonString (b64 bs)

/-- The bytes of an ASCII string (Go `[]byte(s)`). -/
def strBytes (s : String) : List Nat := s.toList.map Char.toNat

def pointJSON (p : Point) : String :=
  "\x7b\"lat\":" ++ ratJSON p.lat ++ ",\"lon\":" ++ ratJSON p.lon ++ "\x7d"

def bboxJSON (b : BoundingBox) : String :=
  "\x7b\"min_lat\":" ++ ratJSON b.minLat ++ ",\"min_lon\":" ++ ratJSON b.minLon ++
    ",\"max_lat\":" ++ ratJSON b.maxLat ++ ",\"max_lon\":" ++ ratJSON b.maxLon ++ "\x7d"

/-- `Geometry` JSON: every field is `omitempty`. -/
def geometryJSON (g : Geometry) : String :=
  let fields :=
    (if g.polygon.length ≠ 0 then
      ["\"polygon\":[" ++ String.intercalate (",") (g.polygon.map pointJSON) ++ "]"] else []) ++
    (match g.circleCenter with | some c => ["\"circle_center\":" ++ pointJSON c] | none => []) ++
    (if g.circleRadius ≠ 0 then ["\"circle_radius_m\":" ++ ratJSON g.circleRadius] else []) ++
    (match g.bbox with | some b => ["\"bbox\":" ++ bboxJSON b] | none => [])
  "\x7b" ++ String.intercalate (",") fields ++ "\x7d"

/-- `json.Marshal` of a `FenceItem`. -/
def fenceJSON (f : FenceItem) : String :=
  "\x7b\"id\":" ++ jsonString f.id ++
    ",\"type\":" ++ toString f.type ++
    ",\"geometry\":" ++ geometryJSON f.geometry ++
    ",\"start_ts\":" ++ toString f.startTS ++
    ",\"end_ts\":" ++ toString f.endTS ++
    ",\"priority\":" ++ toString f.priority ++
    ",\"max_alt_m\":" ++ toString f.maxAltitude ++
    ",\"max_speed_mps\":" ++ toString f.maxSpeed ++
    ",\"name\":" ++ jsonString f.name ++
    ",\"description\":" ++ jsonString f.description ++
    ",\"signature\":" ++ bytesJSON f.signature ++
    ",\"key_id\":" ++ jsonString f.keyID ++ "\x7d"

/-- `json.Marshal` of a `Manifest` (the compact form
`MarshalBinaryForSigning` feeds to the signer after clearing the
signature). -/
def manifestJSON (m : Manifest) : String :=
  "\x7b\"version\":" ++ toString m.version ++
    ",\"timestamp\":" ++ toString m.timestamp ++
    ",\"root_hash\":" ++ bytesJSON m.rootHash ++
    ",\"delta_url\":" ++ jsonString m.deltaURL ++
    ",\"snapshot_url\":" ++ jsonString m.snapshotURL ++
    ",\"delta_size\":" ++ toString m.deltaSize ++
    ",\"snapshot_size\":" ++ toString m.snapshotSize ++
    ",\"delta_hash\":" ++ bytesJSON m.deltaHash ++
    ",\"snapshot_hash\":" ++ bytesJSON m.snapshotHash ++
    ",\"min_client_version\":" ++ toString m.minClientV ++
    ",\"message\":" ++ jsonString m.message ++
    ",\"signature\":" ++ bytesJSON m.signature ++
    ",\"key_id\":" ++ jsonString m.keyID ++ "\x7d"

/-- `json.MarshalIndent(manifest, "", "  ")`: the form `writeManifest`
puts on disk, which a client then fetches byte for byte. -/
def manifestJSONIndent (m : Manifest) : String :=
  "\x7b\n  \"version\": " ++ toString m.version ++
    ",\n  \"timestamp\": " ++ toString m.timestamp ++
    ",\n  \"root_hash\": " ++ bytesJSON m.rootHash ++
    ",\n  \"delta_url\": " ++ jsonString m.deltaURL ++
    ",\n  \"snapshot_url\": " ++ jsonString m.snapshotURL ++
    ",\n  \"delta_size\": " ++ toString m.deltaSize ++
    ",\n  \"snapshot_size\": " ++ toString m.snapshotSize ++
    ",\n  \"delta_hash\": " ++ bytesJSON m.deltaHash ++
    ",\n  \"snapshot_hash\": " ++ bytesJSON m.snapshotHash ++
    ",\n  \"min_client_version\": " ++ toString m.minClientV ++
    ",\n  \"message\": " ++ jsonString m.message ++
    ",\n  \"signature\": " ++ bytesJSON m.signature ++
    ",\n  \"key_id\": " ++ jsonString m.keyID ++ "\n\x7d"

/-! ## Ed25519 (`pkg/crypto`)

Ed25519 itself is an external primitive (curve arithmetic over
floating-free but enormous field math); it is abstracted as a scheme
record.  Everything the repository builds on top of it — size checks,
key ids, which bytes get signed and which bytes get verified — is
embedded exactly. -/

/-- An Ed25519 implementation: `ed25519.Sign` and `ed25519.Verify`. -/
structure Ed where
  sign : List Nat → List Nat → List Nat
  verify : List Nat → List Nat → List Nat → Bool

/-- `crypto.Verify`: wrong public-key or signature size returns `false`
before the primitive runs. -/
def cryptoVerify (ed : Ed) (publicKey message signature : List Nat) : Bool :=
  if publicKey.length ≠ 32 then false
  else if signature.length ≠ 64 then false
  else ed.verify publicKey message signature

/-- `crypto.computeKeyID`: hex of the first 8 bytes of SHA-256 of the
public key. -/
def hexDigit (n : Nat) : Char := if n < 10 then Char.ofNat (48 + n) else Char.ofNat (87 + n)

def hexByte (b : Nat) : String := String.mk [hexDigit (b / 16), hexDigit (b % 16)]

def computeKeyID (publicKey : List Nat) : String :=
  String.join (((sha256 publicKey).take 8).map hexByte)

/-- The signing step of `Publisher.Publish` (lines 164–166): marshal the
manifest with the signature field cleared (`MarshalBinaryForSigning`),
sign those bytes, then `SetSignature` writes signature and key id into
the manifest. -/
def publisherSignManifest (ed : Ed) (priv : List Nat) (keyID : String) (m : Manifest) : Manifest :=
  let manifestData := strBytes (manifestJSON { m with signature := [] })
  { m with signature := ed.sign priv manifestData, keyID := keyID }

/-- `Client.verifyManifestSignature` (src/unnamed/part_001, lines
118–145): `data` is the raw manifest byte string as fetched; the
signature is verified **over those fetched bytes**.  Returns the error
message, or `none` for success. -/
def clientVerifyManifestSignature (ed : Ed) (publicKey : List Nat) (m : Manifest)
    (data : List Nat) : Option String :=
  if publicKey.length = 0 then none
  else if m.signature.length = 0 then some ("manifest has no signature")
  else if ¬ cryptoVerify ed publicKey data m.signature then some ("invalid signature")
  else if m.keyID ≠ "" ∧ computeKeyID publicKey ≠ m.keyID then some ("key ID mismatch")
  else none

/-! ## Merkle tree (`pkg/merkle/merkle.go`) -/

/-- `merkle.Node`: hash, children, leaf flag, leaf id, encoded leaf data. -/
inductive MNode where
  | mk (hash : List Nat) (left : Option MNode) (right : Option MNode)
      (leaf : Bool) (leafId : String) (leafData : List Nat)

def MNode.hash : MNode → List Nat | .mk h _ _ _ _ _ => h
def MNode.left : MNode → Option MNode | .mk _ l _ _ _ _ => l
def MNode.right : MNode → Option MNode | .mk _ _ r _ _ _ => r
def MNode.leaf : MNode → Bool | .mk _ _ _ b _ _ => b
def MNode.leafId : MNode → String | .mk _ _ _ _ i _ => i

/-- One pass of the pairing loop inside `Tree.buildTree`: nodes are taken
two at a time; a trailing unpaired node gets a parent with `right = nil`
whose hash is SHA-256 of the left child's hash alone (the `h.Write`
calls skip a nil child). -/
def levelUp : List MNode → List MNode
  | [] => []
  | [l] => [.mk (sha256 l.hash) (some l) none false ("") []]
  | l :: r :: rest => .mk (sha256 (l.hash ++ r.hash)) (some l) (some r) false ("") [] :: levelUp rest

/-- The `for len(nodes) > 1` loop of `Tree.buildTree`, with explicit fuel
(any fuel ≥ the list length runs the loop to completion). -/
def buildLoop (fuel : Nat) (ns : List MNode) : Option MNode :=
  match ns with
  | [] => none
  | [n] => some n
  | ns =>
    match fuel with
    | 0 => ns.head?
    | fuel + 1 => buildLoop fuel (levelUp ns)

/-- `Tree.buildTree`. -/
def buildTree (ns : List MNode) : Option MNode := buildLoop ns.length ns

/-- Lexicographic order on byte lists — Go's `<` on strings compares
the UTF-8 bytes. -/
def bytesLt : List Nat → List Nat → Bool
  | [], [] => false
  | [], _ :: _ => true
  | _ :: _, [] => false
  | a :: as, b :: bs => if a < b then true else if b < a then false else bytesLt as bs

def strLt (a b : String) : Bool := bytesLt (strBytes a) (strBytes b)

/-- Insertion into an id-sorted fence list. -/
def insertById (f : FenceItem) : List FenceItem → List FenceItem
  | [] => [f]
  | g :: gs => if strLt f.id g.id then f :: g :: gs else g :: insertById f gs

/-- The `sort.Slice` by ascending `ID` in `NewTree` (an insertion sort;
for distinct ids every correct sort agrees). -/
def sortById : List FenceItem → List FenceItem
  | [] => []
  | f :: fs => insertById f (sortById fs)

/-- The leaf node `NewTree` builds for one fence: the hash covers the
JSON encoding with `Signature` cleared; `LeafData` keeps the full
encoding. -/
def leafNode (f : FenceItem) : MNode :=
  .mk (sha256 (strBytes (fenceJSON { f with signature := [] }))) none none true f.id
    (strBytes (fenceJSON f))

/-- `merkle.NewTree`: `none` is the empty tree (nil root). -/
def newTree (fences : List FenceItem) : Option MNode :=
  if fences.length = 0 then none
  else buildTree ((sortById fences).map leafNode)

/-- `Tree.RootHash`: the all-zero hash for an empty tree. -/
def rootHashOf (t : Option MNode) : List Nat :=
  match t with
  | none => List.replicate 32 0
  | some n => n.hash

/-- The proof path `Tree.GetProof` assembles for a leaf id: the source
walks leaf-to-root through `findParent` (pointer identity); descending
instead and appending the sibling hash after the recursive result
produces the same leaf-to-root sequence for the trees `buildTree`
constructs (all nodes distinct).  A nil sibling (odd node's parent)
contributes nothing — exactly the `len(siblingHash) > 0` guard. -/
def proofFor (idv : String) : MNode → Option (List (List Nat))
  | .mk _ _ _ true lid _ => if lid = idv then some [] else none
  | .mk _ l r false _ _ =>
    match l with
    | some ln =>
      match proofFor idv ln with
      | some p => some (p ++ (match r with | some rn => [rn.hash] | none => []))
      | none =>
        match r with
        | some rn =>
          match proofFor idv rn with
          | some p => some (p ++ [ln.hash])
          | none => none
        | none => none
    | none =>
      match r with
      | some rn =>
        match proofFor idv rn with
        | some p => some p
        | none => none
      | none => none

/-- `Tree.GetProof`. -/
def getProof (t : Option MNode) (idv : String) : Except String (List (List Nat)) :=
  match t with
  | none => .error ("fence not found: " ++ idv)
  | some root =>
    match proofFor idv root with
    | some p => .ok p
    | none => .error ("fence not found: " ++ idv)

/-- `merkle.VerifyProof`.  The source receives the fence's canonical item
bytes, json-decodes them, clears the signature and re-encodes; for
canonical bytes that round-trip is the pre-signature encoding used here,
so the embedding takes the decoded fence directly.  Each step hashes
`current ‖ sibling` and then **hashes the digest again**
(`sha256.Sum256(hasher.Sum(nil))` on top of the incremental hash), and
always places `current` on the left — the proof carries no side tags. -/
def verifyProof (fence : FenceItem) (proof : List (List Nat)) (rootHash : List Nat) : Bool :=
  let leafHash := sha256 (strBytes (fenceJSON { fence with signature := [] }))
  let final := proof.foldl
    (fun cur sib => if sib.length = 0 then cur else sha256 (sha256 (cur ++ sib))) leafHash
  final = rootHash

/-- Modelled from the spec, for comparison with `buildTree` (claim C7):
"when a level has odd arity, the last node is carried unmodified to the
next level (no duplication)"; pairs hash as SHA-256(left ‖ right). -/
def levelUpCarry : List MNode → List MNode
  | [] => []
  | [l] => [l]
  | l :: r :: rest =>
    .mk (sha256 (l.hash ++ r.hash)) (some l) (some r) false ("") [] :: levelUpCarry rest

/-- Modelled from the spec: the build loop with the carry rule. -/
def buildLoopCarry (fuel : Nat) (ns : List MNode) : Option MNode :=
  match ns with
  | [] => none
  | [n] => some n
  | ns =>
    match fuel with
    | 0 => ns.head?
    | fuel + 1 => buildLoopCarry fuel (levelUpCarry ns)

/-- Modelled from the spec: tree construction with odd nodes carried
unmodified. -/
def buildTreeCarry (ns : List MNode) : Option MNode := buildLoopCarry ns.length ns

/-! ## Binary delta codec (`pkg/binarydiff/delta.go`) -/

/-- `binarydiff.DeltaFile`. -/
structure DeltaFile where
  fromVersion : Nat := 0
  toVersion : Nat := 0
  fromSize : Int := 0
  toSize : Int := 0
  diffData : List Nat := []
  diffHash : List Nat := []
  deriving DecidableEq, Repr

/-- `binarydiff.commonPrefixLen`. -/
def commonPrefixLen : List Nat → List Nat → Nat
  | a :: as, b :: bs => if a = b then commonPrefixLen as bs + 1 else 0
  | _, _ => 0

/-- `binarydiff.commonSuffixLen`: the Go loop walks both lists from the
back to the first mismatch, which is the common prefix of the
reversals. -/
def commonSuffixLen (a b : List Nat) : Nat := commonPrefixLen a.reverse b.reverse

/-- The `float64(len(new)-len(old))/float64(len(old)) > 0.5` heuristic of
`computeDiff`, in exact arithmetic (the quotient is exact for every
length below 2^52; the Go division of a positive value by zero is +Inf,
of zero by zero NaN — both cases written out). -/
def diffRatioExceeds (lold lnew : Nat) : Bool :=
  if lold = 0 then lnew ≠ 0 else 2 * (lnew - lold) > lold

/-- `binarydiff.computeDiff`: emit the new bytes verbatim when they are
shorter or the length divergence exceeds 50%; otherwise
`[prefixLen u32le ‖ suffixLen u32le ‖ middle]`.  (The Go function's
`error` result is nil on every path.) -/
def computeDiff (oldData newData : List Nat) : List Nat :=
  if newData.length < oldData.length then newData
  else if diffRatioExceeds oldData.length newData.length then newData
  else
    let preLen := commonPrefixLen oldData newData
    let sufLen := commonSuffixLen (oldData.drop preLen) (newData.drop preLen)
    u32le preLen ++ u32le sufLen ++ (newData.drop preLen).take (newData.length - sufLen - preLen)

/-- `binarydiff.Patch`, with the Go signature `([]byte, error)` kept as
`Except`: **every** return site of the source carries a nil error, so
every branch here is `.ok`.  The length comparisons mirror the Go
`uint32` comparison against `uint32(len(oldData))`. -/
def patch (oldData diffData : List Nat) : Except String (List Nat) :=
  if diffData.length < 8 then .ok diffData
  else
    let preLen := le32 diffData
    let sufLen := le32 (diffData.drop 4)
    if preLen > oldData.length % 4294967296 ∨ sufLen > oldData.length % 4294967296 then
      .ok diffData
    else
      let totalLen := preLen + (diffData.length - 8) + sufLen
      if totalLen > 10 * 1024 * 1024 then .ok diffData
      else
        .ok (oldData.take preLen ++ diffData.drop 8 ++
          (if sufLen > 0 ∧ preLen + sufLen ≤ oldData.length then
            oldData.drop (oldData.length - sufLen) else []))

/-- `binarydiff.PatchFences`: marshal the old fences (the JSON
collection encoder is the `marshalColl` parameter), check the delta's
own hash, patch, decode (`parseColl`). -/
def patchFences (marshalColl : List FenceItem → List Nat)
    (parseColl : List Nat → Except String (List FenceItem))
    (oldFences : List FenceItem) (delta : DeltaFile) : Except String (List FenceItem) :=
  let oldData := marshalColl oldFences
  if delta.diffHash.length > 0 ∧ ¬ verifyHash delta.diffData delta.diffHash then
    .error ("diff hash mismatch")
  else
    match patch oldData delta.diffData with
    | .error e => .error ("failed to apply patch: " ++ e)
    | .ok newData => parseColl newData

/-! ## `geofence.ApplyDelta` (src/unnamed/part_002, lines 81–116)

The Go `map[string]FenceItem` becomes an association list; insertion of
a present key replaces in place, of a fresh key appends, deletion
filters — the observable map semantics.  Go's randomized iteration
order makes the result's order unspecified; the embedding's list order
is one admissible order, and the claims only ever compare membership. -/

def mapHas (m : List (String × FenceItem)) (k : String) : Bool := m.any (·.1 = k)

/-- `m[k] = v`: replace the entry in place when the key is present,
append otherwise. -/
def mapInsert : List (String × FenceItem) → String → FenceItem → List (String × FenceItem)
  | [], k, v => [(k, v)]
  | kv :: rest, k, v => if kv.1 = k then (k, v) :: rest else kv :: mapInsert rest k v

def mapDelete (m : List (String × FenceItem)) (k : String) : List (String × FenceItem) :=
  m.filter (·.1 ≠ k)

/-- The `delta.Added` loop: error when the id is already present. -/
def addAll : List FenceItem → List (String × FenceItem) →
    Except String (List (String × FenceItem))
  | [], m => .ok m
  | f :: fs, m =>
    if mapHas m f.id then .error ("fence " ++ f.id ++ " already exists")
    else addAll fs (mapInsert m f.id f)

/-- The `delta.Updated` loop: error when the id is absent. -/
def updateAll : List FenceItem → List (String × FenceItem) →
    Except String (List (String × FenceItem))
  | [], m => .ok m
  | f :: fs, m =>
    if ¬ mapHas m f.id then .error ("fence " ++ f.id ++ " does not exist")
    else updateAll fs (mapInsert m f.id f)

/-- `geofence.ApplyDelta`. -/
def applyDelta (existing : List FenceItem) (delta : FenceDelta) :
    Except String (List FenceItem) :=
  let fenceMap := existing.foldl (fun m f => mapInsert m f.id f) []
  let afterRemove := delta.removedIDs.foldl mapDelete fenceMap
  match addAll delta.added afterRemove with
  | .error e => .error e
  | .ok afterAdd =>
    match updateAll delta.updated afterAdd with
    | .error e => .error e
    | .ok final => .ok (final.map (·.2))

/-! ## Transactional store (`pkg/storage/storage.go`)

The SQLite state: the `fences` table (rows keyed by the autoincrement
`rowid`, with a UNIQUE constraint on `id`), the `fence_index` R-Tree
(one bounding-box entry per `rowid`), and the `metadata` keys
`manifest` and `version`.

Each mutating operation of the source wraps its SQL statements and the
commit in **one** SQL transaction and rolls back on any failure, so at
the store-operation boundary a database fault has exactly one
observable outcome: an error with the state unchanged.  Every operation
therefore takes a `fault : Bool` — "some statement or the commit of
this operation failed" — injected at the front. -/

/-- A row of the `fences` table. -/
structure Row where
  rowid : Nat
  fence : FenceItem
  deriving DecidableEq, Repr

/-- An entry of the `fence_index` R-Tree:
`(minX=minLon, maxX=maxLon, minY=minLat, maxY=maxLat)` keyed by rowid. -/
structure IdxEntry where
  rowid : Nat
  minX : Rat
  maxX : Rat
  minY : Rat
  maxY : Rat
  deriving DecidableEq, Repr

/-- The persistent store state. -/
structure StoreState where
  table : List Row := []
  fenceIndex : List IdxEntry := []
  manifest : Option Manifest := none
  version : Nat := 0
  nextRow : Nat := 1
  deriving DecidableEq, Repr

/-- The R-Tree entry `AddFence`/`UpdateFence` derive from a fence. -/
def idxOf (rowid : Nat) (f : FenceItem) : IdxEntry :=
  let b := getBounds f
  ⟨rowid, b.minLon, b.maxLon, b.minLat, b.maxLat⟩

/-- `SQLiteStore.AddFence`: inside one transaction, insert the fence row
(the UNIQUE constraint on `id` rejects duplicates) and the R-Tree entry
under the fresh rowid. -/
def addFence (fault : Bool) (f : FenceItem) (s : StoreState) : Except String StoreState :=
  if fault then .error ("db")
  else if s.table.any (·.fence.id = f.id) then .error ("failed to insert fence")
  else .ok { s with
    table := s.table ++ [⟨s.nextRow, f⟩]
    fenceIndex := s.fenceIndex ++ [idxOf s.nextRow f]
    nextRow := s.nextRow + 1 }

/-- `SQLiteStore.UpdateFence`: inside one transaction, `UPDATE fences …
WHERE id` (zero affected rows is `ErrFenceNotFound`), then update the
R-Tree entry whose rowid the subquery on `id` yields. -/
def updateFence (fault : Bool) (f : FenceItem) (s : StoreState) : Except String StoreState :=
  if fault then .error ("db")
  else
    match s.table.find? (·.fence.id = f.id) with
    | none => .error ("fence not found")
    | some row => .ok { s with
        table := s.table.map (fun r => if r.fence.id = f.id then ⟨r.rowid, f⟩ else r)
        fenceIndex := s.fenceIndex.map
          (fun e => if e.rowid = row.rowid then idxOf e.rowid f else e) }

/-- `SQLiteStore.DeleteFence`: inside one transaction, look up the rowid
by id (`ErrFenceNotFound` when absent), delete the fence row and the
R-Tree entry of that rowid. -/
def deleteFence (fault : Bool) (idv : String) (s : StoreState) : Except String StoreState :=
  if fault then .error ("db")
  else
    match s.table.find? (·.fence.id = idv) with
    | none => .error ("fence not found")
    | some row => .ok { s with
        table := s.table.filter (·.fence.id ≠ idv)
        fenceIndex := s.fenceIndex.filter (·.rowid ≠ row.rowid) }

/-- `SQLiteStore.SetManifest` (`INSERT OR REPLACE INTO metadata`). -/
def setManifest (fault : Bool) (m : Manifest) (s : StoreState) : Except String StoreState :=
  if fault then .error ("db") else .ok { s with manifest := some m }

/-- `SQLiteStore.SetVersion`. -/
def setVersion (fault : Bool) (v : Nat) (s : StoreState) : Except String StoreState :=
  if fault then .error ("db") else .ok { s with version := v }

/-- Stable insertion into a priority-descending row list: the inserted
row (originally earlier) stays in front of rows of equal priority. -/
def insertByPriority (r : Row) : List Row → List Row
  | [] => [r]
  | g :: gs =>
    if g.fence.priority > r.fence.priority then g :: insertByPriority r gs else r :: g :: gs

/-- `ORDER BY priority DESC` over the table, stable in rowid (scan)
order — SQL leaves the tie order unspecified; rowid order is SQLite's
scan order and the one the model fixes. -/
def sortByPriority : List Row → List Row
  | [] => []
  | r :: rs => insertByPriority r (sortByPriority rs)

/-- `SQLiteStore.ListFences` (`ORDER BY priority DESC`). -/
def listFences (s : StoreState) : List FenceItem :=
  (sortByPriority s.table).map (·.fence)

/-- `SQLiteStore.QueryAtPoint` at time `now`: R-Tree join filters rows
whose box contains the point, ordered by priority descending; each
candidate is then exact-tested with `ContainsPoint` and `IsActiveNow`. -/
def queryAtPoint (hav : Point → Point → Rat) (now : Int) (s : StoreState)
    (lat lon : Rat) : List FenceItem :=
  let cands := (sortByPriority s.table).filter fun r =>
    s.fenceIndex.any fun e =>
      e.rowid = r.rowid ∧ e.minX ≤ lon ∧ e.maxX ≥ lon ∧ e.minY ≤ lat ∧ e.maxY ≥ lat
  ((cands.filter fun r =>
    containsPoint hav r.fence.geometry ⟨lat, lon⟩ ∧ isActiveAt r.fence now).map (·.fence))

/-! ## Client sync (`pkg/sync/syncer.go`)

Network fetches are inputs (`Except` values), the JSON codecs of the Go
standard library are the `SyncCodec` parameters, and database faults
are a `List Bool` schedule consumed left to right, one flag per store
operation attempted. -/

/-- The first fault flag, and the rest of the schedule. -/
def nextFault : List Bool → Bool × List Bool
  | [] => (false, [])
  | b :: r => (b, r)

/-- The upsert loop of `Syncer.updateStorage`: try `UpdateFence`; on
**any** error fall back to `AddFence`.  Each operation runs — in the
source — directly on the store, in its own transaction, so effects of
completed iterations persist even when a later one fails; the loop
therefore returns the reached state alongside the error. -/
def upsertLoop (faults : List Bool) (fences : List FenceItem) (s : StoreState) :
    Option String × StoreState × List Bool :=
  match fences with
  | [] => (none, s, faults)
  | f :: fs =>
    let (b1, faults) := nextFault faults
    match updateFence b1 f s with
    | .ok s1 => upsertLoop faults fs s1
    | .error _ =>
      let (b2, faults) := nextFault faults
      match addFence b2 f s with
      | .ok s1 => upsertLoop faults fs s1
      | .error e => (some ("failed to add fence " ++ f.id ++ ": " ++ e), s, faults)

/-- `Syncer.updateStorage`: a transaction is begun (and rolled back or
committed at the end), but none of the store calls below runs on it —
`UpdateFence`/`AddFence`/`SetManifest`/`SetVersion` each commit on
their own.  The final flag stands for the commit of that (empty) outer
transaction. -/
def updateStorage (faults : List Bool) (fences : List FenceItem) (m : Manifest)
    (s : StoreState) : Option String × StoreState :=
  match upsertLoop faults fences s with
  | (some e, s1, _) => (some e, s1)
  | (none, s1, faults) =>
    let (b1, faults) := nextFault faults
    match setManifest b1 m s1 with
    | .error _ => (some ("failed to store manifest"), s1)
    | .ok s2 =>
      let (b2, faults) := nextFault faults
      match setVersion b2 m.version s2 with
      | .error _ => (some ("failed to set version"), s2)
      | .ok s3 =>
        let (bc, _) := nextFault faults
        if bc then (some ("failed to commit transaction"), s3) else (none, s3)

/-- The JSON codec functions the sync path takes from
`encoding/json` (decoding is not embeddable; encoding of collections is
only consumed opaquely here). -/
structure SyncCodec where
  loadSnapshot : List Nat → Except String (List FenceItem)
  readDelta : List Nat → Except String DeltaFile
  marshalColl : List FenceItem → List Nat
  parseColl : List Nat → Except String (List FenceItem)

/-- The network's answers for one sync: the manifest fetch result and
the raw bytes behind the delta and snapshot URLs. -/
structure Net where
  manifest : Except String Manifest
  delta : Except String (List Nat) := .error ("unavailable")
  snapshot : Except String (List Nat) := .error ("unavailable")

/-- `Syncer.applySnapshot`: fetch, verify the snapshot hash when
advertised, decode, then — when a root hash is advertised — rebuild the
Merkle tree and check it with `crypto.VerifyHash(rootHash[:],
manifest.RootHash)`, i.e. compare **SHA-256 of the computed root**
against the manifest's root bytes; finally `updateStorage`. -/
def applySnapshot (codec : SyncCodec) (fetched : Except String (List Nat))
    (faults : List Bool) (m : Manifest) (s : StoreState) : Option String × StoreState :=
  match fetched with
  | .error e => (some ("failed to fetch snapshot: " ++ e), s)
  | .ok snapshotData =>
    if m.snapshotHash.length > 0 ∧ ¬ verifyHash snapshotData m.snapshotHash then
      (some ("snapshot hash verification failed"), s)
    else
      match codec.loadSnapshot snapshotData with
      | .error e => (some ("failed to load snapshot: " ++ e), s)
      | .ok fences =>
        if m.rootHash.length > 0 ∧ ¬ verifyHash (rootHashOf (newTree fences)) m.rootHash then
          (some ("root hash verification failed"), s)
        else updateStorage faults fences m s

/-- `Syncer.applyDelta`: fetch, verify the advertised delta hash,
list the current fences, parse the delta (`binarydiff.ReadDelta`, a
JSON decode), patch, then `updateStorage`. -/
def applyDeltaSync (codec : SyncCodec) (fetched : Except String (List Nat))
    (faults : List Bool) (m : Manifest) (currentVer : Nat) (s : StoreState) :
    Option String × StoreState :=
  match fetched with
  | .error e => (some ("failed to fetch delta: " ++ e), s)
  | .ok deltaData =>
    if m.deltaHash.length > 0 ∧ ¬ verifyHash deltaData m.deltaHash then
      (some ("delta hash verification failed"), s)
    else
      let oldFences := listFences s
      match codec.readDelta deltaData with
      | .error e => (some ("failed to parse delta: " ++ e), s)
      | .ok delta =>
        match patchFences codec.marshalColl codec.parseColl oldFences
            { delta with fromVersion := currentVer, toVersion := m.version } with
        | .error e => (some ("failed to apply patch: " ++ e), s)
        | .ok newFences => updateStorage faults newFences m s

/-- The syncer's in-memory state: `currentVer` plus the store. -/
structure SyncerSt where
  currentVer : Nat := 0
  store : StoreState := {}
  deriving Repr

/-- `Syncer.Sync`'s result (the fields the claims speak about). -/
structure SyncResult where
  upToDate : Bool := false
  previousVer : Nat := 0
  currentVer : Nat := 0
  error : Option String := none
  deriving DecidableEq, Repr

/-- `Syncer.Sync`: fetch the manifest; `remote ≤ local` is up to date;
otherwise the delta path exactly when the version gap is 1 and a delta
URL is present, else the snapshot path; on success advance
`currentVer`.  On failure the in-memory version is untouched — but the
store keeps whatever the failed apply left behind. -/
def sync (codec : SyncCodec) (net : Net) (faults : List Bool) (st : SyncerSt) :
    SyncResult × SyncerSt :=
  match net.manifest with
  | .error e =>
    ({ previousVer := st.currentVer, error := some ("failed to fetch manifest: " ++ e) }, st)
  | .ok m =>
    if m.version ≤ st.currentVer then
      ({ previousVer := st.currentVer, currentVer := m.version, upToDate := true }, st)
    else
      let useDelta := m.version - st.currentVer = 1 ∧ m.deltaURL ≠ ""
      let (err, store1) :=
        if useDelta then applyDeltaSync codec net.delta faults m st.currentVer st.store
        else applySnapshot codec net.snapshot faults m st.store
      match err with
      | some e =>
        ({ previousVer := st.currentVer, currentVer := m.version,
           error := some ("failed to apply update: " ++ e) }, { st with store := store1 })
      | none =>
        ({ previousVer := st.currentVer, currentVer := m.version },
         { currentVer := m.version, store := store1 })

/-- `Syncer.Check`: query the store at the point, pick the
highest-priority result (`results[0]` seeds the scan and only a
strictly greater priority replaces it), and forbid flight exactly for
`PermanentNoFly` and `TempRestriction`; every other type returns the
fence with `allowed = true`. -/
def selectHP (r : FenceItem) (rest : List FenceItem) : FenceItem :=
  rest.foldl (fun best f => if f.priority > best.priority then f else best) r

def check (hav : Point → Point → Rat) (now : Int) (s : StoreState) (lat lon : Rat) :
    Bool × Option FenceItem :=
  match queryAtPoint hav now s lat lon with
  | [] => (true, none)
  | r :: rest =>
    let hp := selectHP r rest
    if hp.type = fenceTypePermanentNoFly ∨ hp.type = fenceTypeTempRestriction then
      (false, some hp)
    else (true, some hp)

/-- `version.Manager.QueryAtPoint` (src/pkg/binarydiff/delta.go
concatenation, lines 1177–1205): same candidate selection, but the
switch returns the fence only for `PermanentNoFly`, `TempRestriction`,
`AltitudeLimit` and `SpeedLimit`; every other type — including
`AltitudeMinimum` — falls to `default` and returns `(true, nil)`. -/
def managerQueryAtPoint (hav : Point → Point → Rat) (now : Int) (s : StoreState)
    (lat lon : Rat) : Bool × Option FenceItem :=
  match queryAtPoint hav now s lat lon with
  | [] => (true, none)
  | r :: rest =>
    let hp := selectHP r rest
    if hp.type = fenceTypePermanentNoFly ∨ hp.type = fenceTypeTempRestriction then
      (false, some hp)
    else if hp.type = fenceTypeAltitudeLimit then (true, some hp)
    else if hp.type = fenceTypeSpeedLimit then (true, some hp)
    else (true, none)

/-! ## Properties of the delta codec (claims C3 and C9) -/

theorem commonPrefixLen_le_left (a b : List Nat) : commonPrefixLen a b ≤ a.length := by
  induction a generalizing b with
  | nil => cases b <;> simp [commonPrefixLen]
  | cons x xs ih =>
    cases b with
    | nil => simp [commonPrefixLen]
    | cons y ys =>
      by_cases h : x = y <;> simp [commonPrefixLen, h]
      exact ih ys

theorem commonPrefixLen_le_right (a b : List Nat) : commonPrefixLen a b ≤ b.length := by
  induction a generalizing b with
  | nil => cases b <;> simp [commonPrefixLen]
  | cons x xs ih =>
    cases b with
    | nil => simp [commonPrefixLen]
    | cons y ys =>
      by_cases h : x = y <;> simp [commonPrefixLen, h]
      exact ih ys

theorem commonPrefixLen_take (a b : List Nat) :
    a.take (commonPrefixLen a b) = b.take (commonPrefixLen a b) := by
  induction a generalizing b with
  | nil => cases b <;> simp [commonPrefixLen]
  | cons x xs ih =>
    cases b with
    | nil => simp [commonPrefixLen]
    | cons y ys =>
      by_cases h : x = y <;> simp [commonPrefixLen, h]
      exact ih ys

theorem commonSuffixLen_le_left (a b : List Nat) : commonSuffixLen a b ≤ a.length := by
  simpa using commonPrefixLen_le_left a.reverse b.reverse

theorem commonSuffixLen_le_right (a b : List Nat) : commonSuffixLen a b ≤ b.length := by
  simpa using commonPrefixLen_le_right a.reverse b.reverse

/-- The common suffix really is a shared suffix: both lists agree on
their last `commonSuffixLen` elements. -/
theorem commonSuffixLen_drop (a b : List Nat) :
    a.drop (a.length - commonSuffixLen a b) = b.drop (b.length - commonSuffixLen a b) := by
  have h := commonPrefixLen_take a.reverse b.reverse
  rw [List.take_reverse, List.take_reverse] at h
  have := congrArg List.reverse h
  simpa [commonSuffixLen] using this

theorem le32_u32le_append (n : Nat) (l : List Nat) (h : n < 4294967296) :
    le32 (u32le n ++ l) = n := by
  simp only [u32le, le32, List.cons_append]
  omega

theorem drop4_u32le (n : Nat) (l : List Nat) : (u32le n ++ l).drop 4 = l := rfl

theorem length_u32le_append (p s : Nat) (mid : List Nat) :
    (u32le p ++ u32le s ++ mid).length = 8 + mid.length := by
  simp [u32le]; omega

/-- What `Patch` does to a well-formed span-encoded delta whose
reconstruction stays within every bound. -/
theorem patch_valid (oldData mid : List Nat) (p s : Nat)
    (hp32 : p < 4294967296) (hs32 : s < 4294967296)
    (hpo : p ≤ oldData.length) (hso : s ≤ oldData.length)
    (hlen32 : oldData.length < 4294967296)
    (hcap : ¬ p + mid.length + s > 10 * 1024 * 1024) :
    patch oldData (u32le p ++ u32le s ++ mid) =
      .ok (oldData.take p ++ mid ++
        (if s > 0 ∧ p + s ≤ oldData.length then
          oldData.drop (oldData.length - s) else [])) := by
  have hlen : (u32le p ++ u32le s ++ mid).length = 8 + mid.length :=
    length_u32le_append p s mid
  have h8 : ¬ (u32le p ++ u32le s ++ mid).length < 8 := by omega
  have hle1 : le32 (u32le p ++ (u32le s ++ mid)) = p := le32_u32le_append p _ hp32
  have hdrop4 : (u32le p ++ (u32le s ++ mid)).drop 4 = u32le s ++ mid := drop4_u32le p _
  have hle2 : le32 ((u32le p ++ (u32le s ++ mid)).drop 4) = s := by
    rw [hdrop4]; exact le32_u32le_append s _ hs32
  have hmod : oldData.length % 4294967296 = oldData.length := Nat.mod_eq_of_lt hlen32
  have hdrop8 : (u32le p ++ (u32le s ++ mid)).drop 8 = mid := rfl
  rw [show u32le p ++ u32le s ++ mid = u32le p ++ (u32le s ++ mid) from by simp] at hlen h8 ⊢
  unfold patch
  rw [if_neg h8]
  simp only [hle1, hle2, hmod, hdrop8, hlen]
  rw [if_neg (by omega), if_neg (by omega)]

/-- Claim C3's amended content as a helper: on the span-encoding path of
`computeDiff` (new data not shorter, divergence within 50%) with the
new length inside the 10 MiB ceiling, `Patch` reconstructs the new
bytes exactly. -/
theorem patch_computeDiff_aux (oldData newData : List Nat)
    (hlen : ¬ newData.length < oldData.length)
    (hratio : diffRatioExceeds oldData.length newData.length = false)
    (hcap : newData.length ≤ 10 * 1024 * 1024) :
    patch oldData (computeDiff oldData newData) = .ok newData := by
  have hon : oldData.length ≤ newData.length := Nat.le_of_not_lt hlen
  set p := commonPrefixLen oldData newData with hpdef
  set s := commonSuffixLen (oldData.drop p) (newData.drop p) with hsdef
  have hpo : p ≤ oldData.length := commonPrefixLen_le_left _ _
  have hpn : p ≤ newData.length := commonPrefixLen_le_right _ _
  have hso : s ≤ oldData.length - p := by
    simpa using commonSuffixLen_le_left (oldData.drop p) (newData.drop p)
  have hsn : s ≤ newData.length - p := by
    simpa using commonSuffixLen_le_right (oldData.drop p) (newData.drop p)
  have hcd : computeDiff oldData newData =
      u32le p ++ u32le s ++ (newData.drop p).take (newData.length - s - p) := by
    unfold computeDiff
    rw [if_neg hlen, if_neg (by simp [hratio])]
  have hmidlen : ((newData.drop p).take (newData.length - s - p)).length =
      newData.length - s - p := by
    simp; omega
  rw [hcd, patch_valid _ _ _ _ (by omega) (by omega) hpo (by omega) (by omega)
    (by rw [hmidlen]; omega)]
  congr 1
  have htake : oldData.take p = newData.take p := commonPrefixLen_take _ _
  by_cases hs0 : s = 0
  · rw [if_neg (by simp [hs0])]
    rw [hs0, htake]
    have hfull : (newData.drop p).take (newData.length - 0 - p) = newData.drop p := by
      apply List.take_of_length_le; simp
    rw [hfull]
    simp [List.take_append_drop]
  · rw [if_pos ⟨Nat.pos_of_ne_zero hs0, by omega⟩]
    have hsuffix := commonSuffixLen_drop (oldData.drop p) (newData.drop p)
    rw [List.drop_drop, List.drop_drop, ← hsdef] at hsuffix
    have hsfx : oldData.drop (oldData.length - s) = newData.drop (newData.length - s) := by
      calc oldData.drop (oldData.length - s)
          = oldData.drop (p + ((oldData.drop p).length - s)) := by
            congr 1; simp [List.length_drop]; omega
        _ = newData.drop (p + ((newData.drop p).length - s)) := hsuffix
        _ = newData.drop (newData.length - s) := by
            congr 1; simp [List.length_drop]; omega
    rw [hsfx, htake]
    have hsplit : newData.take p ++ (newData.drop p).take (newData.length - s - p) =
        newData.take (newData.length - s) := by
      rw [← List.take_add]
      congr 1
      omega
    rw [hsplit, List.take_append_drop]

/-- Claim C9's amended content as a helper: a span-valid delta whose
reconstructed length exceeds the 10 MiB ceiling makes `Patch` return
the delta bytes unchanged, with a nil error. -/
theorem patch_overCap_aux (oldData diffData : List Nat)
    (h8 : ¬ diffData.length < 8)
    (hpre : ¬ le32 diffData > oldData.length % 4294967296)
    (hsuf : ¬ le32 (diffData.drop 4) > oldData.length % 4294967296)
    (hcap : le32 diffData + (diffData.length - 8) + le32 (diffData.drop 4)
      > 10 * 1024 * 1024) :
    patch oldData diffData = .ok diffData := by
  unfold patch
  rw [if_neg h8, if_neg (by omega), if_pos hcap]

/-- Claim C3 (corrected): `Patch(a, computeDiff(a, b)) = b` holds on the
span-encoding path of the diff — `b` not shorter than `a`, length
divergence within 50% of `a`'s length, and `b` within the 10 MiB
reconstruction ceiling.  (The verbatim-emission cases of the claim are
refuted by the counterexample.) -/
theorem patch_computeDiff_roundtrip (oldData newData : List Nat)
    (hlen : ¬ newData.length < oldData.length)
    (hratio : diffRatioExceeds oldData.length newData.length = false)
    (hcap : newData.length ≤ 10 * 1024 * 1024) :
    patch oldData (computeDiff oldData newData) = .ok newData :=
  patch_computeDiff_aux oldData newData hlen hratio hcap

/-- Claim C3, witness: a concrete delta-path round trip. -/
theorem patch_computeDiff_roundtrip_witness :
    patch [1, 2, 3] (computeDiff [1, 2, 3] [1, 2, 9, 3]) = .ok [1, 2, 9, 3] :=
  patch_computeDiff_roundtrip [1, 2, 3] [1, 2, 9, 3] (by decide) (by decide) (by decide)

/-- Claim C3, counterexample: when `b` is shorter than `a`, `computeDiff`
emits `b` verbatim, and `Patch` mis-reads `b`'s first eight bytes as a
plausible span (here prefix 0 / suffix 0), returning `[]` instead of
`b`: the round trip `Patch(a, computeDiff(a, b)) = b` fails. -/
theorem patch_computeDiff_roundtrip_cex :
    patch [0, 0, 0, 0, 0, 0, 0, 0, 1] (computeDiff [0, 0, 0, 0, 0, 0, 0, 0, 1]
      [0, 0, 0, 0, 0, 0, 0, 0]) ≠ .ok [0, 0, 0, 0, 0, 0, 0, 0] := by decide

/-- Claim C9 (corrected): a delta whose decoded spans are admissible for
the old bytes but whose reconstructed length exceeds the 10 MiB ceiling
makes `Patch` return the **delta bytes unchanged with a nil error** —
no reconstruction, but no `DeltaTooLarge` failure either. -/
theorem patch_over_ceiling_returns_delta (oldData diffData : List Nat)
    (h8 : ¬ diffData.length < 8)
    (hpre : ¬ le32 diffData > oldData.length % 4294967296)
    (hsuf : ¬ le32 (diffData.drop 4) > oldData.length % 4294967296)
    (hcap : le32 diffData + (diffData.length - 8) + le32 (diffData.drop 4)
      > 10 * 1024 * 1024) :
    patch oldData diffData = .ok diffData :=
  patch_overCap_aux oldData diffData h8 hpre hsuf hcap

/-- Claim C9, witness: a 16 MiB-spanning delta over a 16 MiB old byte
string comes back unchanged and error-free. -/
theorem patch_over_ceiling_returns_delta_witness :
    patch (List.replicate 16777215 0) [255, 255, 255, 0, 0, 0, 0, 0] =
      .ok [255, 255, 255, 0, 0, 0, 0, 0] :=
  patch_over_ceiling_returns_delta (List.replicate 16777215 0) [255, 255, 255, 0, 0, 0, 0, 0]
    (by decide) (by rw [List.length_replicate]; decide)
    (by rw [List.length_replicate]; decide) (by decide)

/-- Claim C9, counterexample: a delta demanding a 16 MiB suffix out of a
16 MiB old byte string exceeds the ceiling, yet `Patch` returns
successfully (the delta bytes as-is) instead of failing with
`DeltaTooLarge`. -/
theorem patch_over_ceiling_cex :
    patch (List.replicate 16777215 7) [0, 0, 0, 0, 255, 255, 255, 0] =
      .ok [0, 0, 0, 0, 255, 255, 255, 0] :=
  patch_overCap_aux (List.replicate 16777215 7) [0, 0, 0, 0, 255, 255, 255, 0]
    (by decide) (by rw [List.length_replicate]; decide)
    (by rw [List.length_replicate]; decide) (by decide)

/-! ## Merkle construction shape (claim C7) -/

/-- The hash discipline `buildTree` actually maintains: leaves stand as
given; a two-child node hashes SHA-256(left ‖ right); a trailing odd
node is wrapped in a **single-child parent** hashing SHA-256
of the left child's hash alone. -/
inductive HashesWf : MNode → Prop where
  | leaf (h : List Nat) (lid : String) (ld : List Nat) :
      HashesWf (.mk h none none true lid ld)
  | pair (l r : MNode) (lid : String) (ld : List Nat) : HashesWf l → HashesWf r →
      HashesWf (.mk (sha256 (l.hash ++ r.hash)) (some l) (some r) false lid ld)
  | single (l : MNode) (lid : String) (ld : List Nat) : HashesWf l →
      HashesWf (.mk (sha256 l.hash) (some l) none false lid ld)

theorem levelUp_wf : ∀ (ns : List MNode), (∀ n ∈ ns, HashesWf n) →
    ∀ n ∈ levelUp ns, HashesWf n
  | [], _, n, hn => by simp [levelUp] at hn
  | [l], h, n, hn => by
    simp only [levelUp, List.mem_singleton] at hn
    subst hn
    exact .single l _ _ (h l (by simp))
  | l :: r :: rest, h, n, hn => by
    simp only [levelUp, List.mem_cons] at hn
    rcases hn with hn | hn
    · subst hn
      exact .pair l r _ _ (h l (by simp)) (h r (by simp))
    · exact levelUp_wf rest (fun m hm => h m (by simp [hm])) n hn

theorem buildLoop_wf : ∀ (fuel : Nat) (ns : List MNode), (∀ n ∈ ns, HashesWf n) →
    ∀ t, buildLoop fuel ns = some t → HashesWf t
  | _, [], _, t, ht => by simp [buildLoop] at ht
  | _, [n], h, t, ht => by
    simp only [buildLoop, Option.some_inj] at ht
    subst ht
    exact h n (by simp)
  | 0, l :: r :: rest, h, t, ht => by
    simp only [buildLoop, List.head?, Option.some_inj] at ht
    subst ht
    exact h l (by simp)
  | fuel + 1, l :: r :: rest, h, t, ht => by
    rw [show buildLoop (fuel + 1) (l :: r :: rest) =
        buildLoop fuel (levelUp (l :: r :: rest)) from rfl] at ht
    exact buildLoop_wf fuel _ (levelUp_wf _ h) t ht

/-- Claim C7 (corrected): in the tree `buildTree` builds from well-formed
leaves, every two-child node's hash is SHA-256 of the concatenated
child hashes — but a level of odd arity does **not** carry its last
node unmodified: the odd node is re-hashed alone under a single-child
parent (`HashesWf.single`). -/
theorem buildTree_hash_shape (ns : List MNode) (h : ∀ n ∈ ns, HashesWf n) :
    ∀ t, buildTree ns = some t → HashesWf t :=
  buildLoop_wf ns.length ns h

def mleaf1 : MNode := .mk [1] none none true ("a") []
def mleaf2 : MNode := .mk [2] none none true ("b") []
def mleaf3 : MNode := .mk [3] none none true ("c") []

/-- Claim C7, witness: the two-leaf tree exists and satisfies the hash
discipline. -/
theorem buildTree_hash_shape_witness :
    ∃ t, buildTree [mleaf1, mleaf2] = some t ∧ HashesWf t :=
  ⟨_, rfl, buildTree_hash_shape [mleaf1, mleaf2]
    (by
      intro n hn
      simp only [List.mem_cons, List.not_mem_nil, or_false] at hn
      rcases hn with hn | hn <;> subst hn <;> exact .leaf _ _ _)
    _ rfl⟩

/-- Is the right child of the root a leaf?  Distinguishes the built
shapes without evaluating any hash. -/
def rightIsLeaf : Option MNode → Bool
  | some (.mk _ _ (some r) _ _ _) => r.leaf
  | _ => true

/-- Claim C7, counterexample: on three leaves the code's tree differs
from the carry-the-odd-node construction the spec describes — the
code's root has an internal single-child node on the right where the
spec's construction has the third leaf itself. -/
theorem buildTree_carry_cex :
    buildTree [mleaf1, mleaf2, mleaf3] ≠ buildTreeCarry [mleaf1, mleaf2, mleaf3] :=
  fun h => absurd (congrArg rightIsLeaf h) (by decide)

/-! ## Manifest signing versus client verification (claim C2) -/

/-- Truncate/zero-pad a message to 64 bytes, the Ed25519 signature
size. -/
def pad64 (m : List Nat) : List Nat := m.take 64 ++ List.replicate (64 - m.length) 0

/-- An ideal signature scheme standing in for Ed25519: signing
determines a 64-byte tag of the message, and verification accepts a
signature exactly when it is the tag of the presented message.  (Real
Ed25519 verification likewise accepts only the message that was
signed.) -/
def edIdeal : Ed where
  sign := fun _ m => pad64 m
  verify := fun _ m s => s = pad64 m

def c2pub : List Nat := List.replicate 32 1

/-- A manifest as `Publisher.Publish` assembles it before signing
(empty fence set: zero root hash; no delta; signature and key id still
empty). -/
def c2m0 : Manifest :=
  { version := 3, timestamp := 1700000000, rootHash := List.replicate 32 0,
    snapshotURL := "/snapshots/v3.bin", snapshotSize := 120, snapshotHash := [171, 205],
    message := "Version 3 - 0 fences" }

/-- Claim C2 (code bug): with the ideal scheme, the signature produced
by the publisher over the canonical pre-signature encoding *does*
verify against those same bytes (first conjunct) — but
`Client.verifyManifestSignature` hands the verifier the **raw fetched
manifest bytes**, signature field and indentation included, so the
publisher→client round trip always fails with `invalid signature`
(second conjunct). -/
theorem manifest_sign_verify_mismatch :
    cryptoVerify edIdeal c2pub
      (strBytes (manifestJSON { c2m0 with signature := [] }))
      (publisherSignManifest edIdeal [0] ("k") c2m0).signature = true ∧
    clientVerifyManifestSignature edIdeal c2pub
      (publisherSignManifest edIdeal [0] ("k") c2m0)
      (strBytes (manifestJSONIndent (publisherSignManifest edIdeal [0] ("k") c2m0))) =
      some ("invalid signature") := by decide

/-! ## Query-engine selection (claim C5) -/

/-- A stand-in Haversine distance; the concrete fences below are
bounding boxes, so the circle branch — the only consumer — is never
reached. -/
def havZero : Point → Point → Rat := fun _ _ => 0

def fzz : FenceItem :=
  { id := "zzz", type := fenceTypePermanentNoFly, priority := 50,
    geometry := { bbox := some ⟨0, 0, 10, 10⟩ } }

def faa : FenceItem :=
  { id := "aaa", type := fenceTypePermanentNoFly, priority := 50,
    geometry := { bbox := some ⟨0, 0, 10, 10⟩ } }

def fmin : FenceItem :=
  { id := "min", type := fenceTypeAltitudeMinimum, priority := 10,
    geometry := { bbox := some ⟨0, 0, 10, 10⟩ } }

/-- The store after adding `fzz` then `faa`. -/
def storeZA : StoreState :=
  ((addFence false fzz {}).bind (addFence false faa)).toOption.getD {}

/-- The store after adding `faa` then `fzz`: the same fence set. -/
def storeAZ : StoreState :=
  ((addFence false faa {}).bind (addFence false fzz)).toOption.getD {}

/-- A store holding one active `AltitudeMinimum` fence. -/
def storeMin : StoreState := (addFence false fmin {}).toOption.getD {}

theorem selectHP_cons (r f : FenceItem) (fs : List FenceItem) :
    selectHP r (f :: fs) = selectHP (if f.priority > r.priority then f else r) fs := rfl

/-- The fold in `Check` selects the **first** maximal-priority element
of the candidate list: everything before it is of strictly smaller
priority, everything anywhere is of no larger priority. -/
theorem selectHP_decomp (rest : List FenceItem) : ∀ (r : FenceItem),
    ∃ pre post, r :: rest = pre ++ selectHP r rest :: post ∧
      (∀ f ∈ pre, f.priority < (selectHP r rest).priority) ∧
      (∀ f ∈ r :: rest, f.priority ≤ (selectHP r rest).priority) := by
  induction rest with
  | nil => exact fun r => ⟨[], [], by simp [selectHP], by simp, by simp [selectHP]⟩
  | cons f fs ih =>
    intro r
    rw [selectHP_cons]
    by_cases hf : f.priority > r.priority
    · rw [if_pos hf]
      obtain ⟨pre, post, hdec, hlt, hle⟩ := ih f
      refine ⟨r :: pre, post, ?_, ?_, ?_⟩
      · rw [List.cons_append, ← hdec]
      · intro g hg
        rcases List.mem_cons.mp hg with h | h
        · subst h; exact lt_of_lt_of_le hf (hle f (by simp))
        · exact hlt g h
      · intro g hg
        rcases List.mem_cons.mp hg with h | h
        · subst h; exact le_of_lt (lt_of_lt_of_le hf (hle f (by simp)))
        · exact hle g h
    · rw [if_neg hf]
      obtain ⟨pre, post, hdec, hlt, hle⟩ := ih r
      cases pre with
      | nil =>
        simp only [List.nil_append, List.cons.injEq] at hdec
        obtain ⟨h1, h2⟩ := hdec
        refine ⟨[], f :: post, ?_, by simp, ?_⟩
        · rw [List.nil_append, ← h1, ← h2]
        · intro g hg
          rcases List.mem_cons.mp hg with h | h
          · subst h; exact hle g (by simp)
          · rcases List.mem_cons.mp h with h | h
            · subst h
              calc g.priority ≤ r.priority := Nat.le_of_not_lt hf
                _ ≤ _ := hle r (by simp)
            · exact hle g (by simp [h])
      | cons q pre' =>
        simp only [List.cons_append, List.cons.injEq] at hdec
        obtain ⟨h1, h2⟩ := hdec
        refine ⟨r :: f :: pre', post, ?_, ?_, ?_⟩
        · rw [List.cons_append, List.cons_append, ← h2]
        · intro g hg
          have hr : r.priority < (selectHP r fs).priority := by
            have := hlt q (by simp)
            rwa [← h1] at this
          rcases List.mem_cons.mp hg with h | h
          · subst h; exact hr
          · rcases List.mem_cons.mp h with h | h
            · subst h; exact lt_of_le_of_lt (Nat.le_of_not_lt hf) hr
            · exact hlt g (by simp [h])
        · intro g hg
          rcases List.mem_cons.mp hg with h | h
          · subst h; exact hle g (by simp)
          · rcases List.mem_cons.mp h with h | h
            · subst h
              calc g.priority ≤ r.priority := Nat.le_of_not_lt hf
                _ ≤ _ := hle r (by simp)
            · exact hle g (by simp [h])

/-- Claim C5 (corrected): with no active containing candidate, `Check`
returns `(true, none)`; otherwise the selected fence is the **first**
maximal-priority element in the order the store returned the
candidates (priority-descending, ties in scan order — *not* an
ordering on fence ids), and flight is forbidden exactly for the two
prohibitive types; every other type returns `(true, selected)`. -/
theorem check_selects_first_max (hav : Point → Point → Rat) (now : Int)
    (s : StoreState) (lat lon : Rat) :
    (queryAtPoint hav now s lat lon = [] → check hav now s lat lon = (true, none)) ∧
    ∀ r rest, queryAtPoint hav now s lat lon = r :: rest →
      ∃ pre post, r :: rest = pre ++ selectHP r rest :: post ∧
        (∀ f ∈ pre, f.priority < (selectHP r rest).priority) ∧
        (∀ f ∈ r :: rest, f.priority ≤ (selectHP r rest).priority) ∧
        check hav now s lat lon =
          (if (selectHP r rest).type = fenceTypePermanentNoFly ∨
              (selectHP r rest).type = fenceTypeTempRestriction
           then (false, some (selectHP r rest)) else (true, some (selectHP r rest))) := by
  constructor
  · intro h
    simp [check, h]
  · intro r rest h
    obtain ⟨pre, post, hdec, hlt, hle⟩ := selectHP_decomp rest r
    exact ⟨pre, post, hdec, hlt, hle, by simp [check, h]⟩

/-- Claim C5, witness: the empty store allows everything. -/
theorem check_selects_first_max_witness :
    check havZero 0 {} 0 0 = (true, none) :=
  (check_selects_first_max havZero 0 {} 0 0).1 (by decide)

/-- Claim C5, counterexample: `storeZA` and `storeAZ` hold the same
fence set (a permutation), both fences active, containing the point,
and of equal priority — yet `Check` selects a different fence in each,
so the tie cannot be broken by any deterministic ordering on fence
ids.  And on an active containing `AltitudeMinimum` (advisory) fence,
`Manager.QueryAtPoint` returns `(true, none)` instead of the selected
fence. -/
theorem check_id_tiebreak_cex :
    (storeZA.table.map (·.fence)).Perm (storeAZ.table.map (·.fence)) ∧
    check havZero 0 storeZA 5 5 = (false, some fzz) ∧
    check havZero 0 storeAZ 5 5 = (false, some faa) ∧
    queryAtPoint havZero 0 storeMin 5 5 = [fmin] ∧
    managerQueryAtPoint havZero 0 storeMin 5 5 = (true, none) := by decide

/-! ## `geofence.ApplyDelta` semantics (claim C10)

Association-map observations: `mlook` is the map read, `keysOf` the key
set; every entry's key equals its value's id (`KeysMatch`) by
construction of `ApplyDelta`. -/

def mlook (m : List (String × FenceItem)) (k : String) : Option FenceItem :=
  (m.find? (·.1 = k)).map (·.2)

def keysOf (m : List (String × FenceItem)) : List String := m.map (·.1)

def KeysMatch (m : List (String × FenceItem)) : Prop := ∀ kv ∈ m, kv.1 = kv.2.id

theorem mlook_cons_of_eq {kv : String × FenceItem} {rest : List (String × FenceItem)}
    {k' : String} (h : kv.1 = k') : mlook (kv :: rest) k' = some kv.2 := by
  simp [mlook, List.find?_cons_of_pos, h]

theorem mlook_cons_of_ne {kv : String × FenceItem} {rest : List (String × FenceItem)}
    {k' : String} (h : ¬ kv.1 = k') : mlook (kv :: rest) k' = mlook rest k' := by
  simp [mlook, List.find?_cons_of_neg, h]

theorem mapHas_isSome (m : List (String × FenceItem)) (k : String) :
    mapHas m k = (mlook m k).isSome := by
  induction m with
  | nil => rfl
  | cons kv rest ih =>
    by_cases h : kv.1 = k
    · simp [mapHas, mlook_cons_of_eq h, h]
    · simp only [mapHas, List.any_cons, mlook_cons_of_ne h, Bool.or_eq_true]
      simp only [mapHas] at ih
      simp [ih, h]

theorem mlook_insert (m : List (String × FenceItem)) (k k' : String) (v : FenceItem) :
    mlook (mapInsert m k v) k' = if k' = k then some v else mlook m k' := by
  induction m with
  | nil =>
    by_cases h : k' = k
    · subst h; rw [if_pos rfl]; exact mlook_cons_of_eq rfl
    · rw [if_neg h]
      rw [show mapInsert [] k v = [(k, v)] from rfl]
      rw [mlook_cons_of_ne (fun hh => h hh.symm)]
  | cons kv rest ih =>
    by_cases h : kv.1 = k
    · rw [show mapInsert (kv :: rest) k v = (k, v) :: rest from by simp [mapInsert, h]]
      by_cases h2 : k' = k
      · subst h2; rw [if_pos rfl]; exact mlook_cons_of_eq rfl
      · rw [if_neg h2, mlook_cons_of_ne (fun hh => h2 hh.symm),
          mlook_cons_of_ne (fun hh => h2 (h ▸ hh).symm)]
    · rw [show mapInsert (kv :: rest) k v = kv :: mapInsert rest k v from by
        simp [mapInsert, h]]
      by_cases h2 : kv.1 = k'
      · have hk : ¬ (k' = k) := fun hh => h (h2.trans hh)
        rw [if_neg hk, mlook_cons_of_eq h2, mlook_cons_of_eq h2]
      · rw [mlook_cons_of_ne h2, mlook_cons_of_ne h2, ih]

theorem mem_mapInsert (m : List (String × FenceItem)) (k : String) (v : FenceItem) :
    ∀ kv ∈ mapInsert m k v, kv = (k, v) ∨ kv ∈ m := by
  induction m with
  | nil => simp [mapInsert]
  | cons hd rest ih =>
    intro kv hkv
    by_cases h : hd.1 = k
    · rw [show mapInsert (hd :: rest) k v = (k, v) :: rest from by simp [mapInsert, h]] at hkv
      rcases List.mem_cons.mp hkv with h1 | h1
      · exact Or.inl h1
      · exact Or.inr (List.mem_cons_of_mem _ h1)
    · rw [show mapInsert (hd :: rest) k v = hd :: mapInsert rest k v from by
        simp [mapInsert, h]] at hkv
      rcases List.mem_cons.mp hkv with h1 | h1
      · exact Or.inr (h1 ▸ List.mem_cons_self _ _)
      · rcases ih kv h1 with h2 | h2
        · exact Or.inl h2
        · exact Or.inr (List.mem_cons_of_mem _ h2)

theorem keysOf_insert_mem (m : List (String × FenceItem)) (k : String) (v : FenceItem)
    (hk : k ∈ keysOf m) : keysOf (mapInsert m k v) = keysOf m := by
  induction m with
  | nil => simp [keysOf] at hk
  | cons hd rest ih =>
    by_cases h : hd.1 = k
    · rw [show mapInsert (hd :: rest) k v = (k, v) :: rest from by simp [mapInsert, h]]
      simp [keysOf, h]
    · rw [show mapInsert (hd :: rest) k v = hd :: mapInsert rest k v from by
        simp [mapInsert, h]]
      have hk' : k ∈ keysOf rest := by
        rcases by simpa [keysOf] using hk with h1 | h1
        · exact absurd h1.symm h
        · simpa [keysOf] using h1
      simp only [keysOf, List.map_cons]
      rw [show List.map (·.1) (mapInsert rest k v) = keysOf (mapInsert rest k v) from rfl,
        ih hk']
      rfl

theorem keysOf_insert_not_mem (m : List (String × FenceItem)) (k : String) (v : FenceItem)
    (hk : k ∉ keysOf m) : keysOf (mapInsert m k v) = keysOf m ++ [k] := by
  induction m with
  | nil => simp [mapInsert, keysOf]
  | cons hd rest ih =>
    have h : ¬ hd.1 = k := fun hh => hk (by simp [keysOf, hh])
    rw [show mapInsert (hd :: rest) k v = hd :: mapInsert rest k v from by
      simp [mapInsert, h]]
    have hk' : k ∉ keysOf rest := fun hh => hk (by simp [keysOf] at hh ⊢; exact Or.inr hh)
    simp only [keysOf, List.map_cons, List.cons_append]
    rw [show List.map (·.1) (mapInsert rest k v) = keysOf (mapInsert rest k v) from rfl,
      ih hk']
    rfl

theorem nodup_keys_insert (m : List (String × FenceItem)) (k : String) (v : FenceItem)
    (h : (keysOf m).Nodup) : (keysOf (mapInsert m k v)).Nodup := by
  by_cases hk : k ∈ keysOf m
  · rw [keysOf_insert_mem m k v hk]; exact h
  · rw [keysOf_insert_not_mem m k v hk]
    refine List.Nodup.append h (List.nodup_singleton k) ?_
    intro a ha hb
    rw [List.mem_singleton.mp hb] at ha
    exact hk ha

theorem keysMatch_insert (m : List (String × FenceItem)) (v : FenceItem)
    (h : KeysMatch m) : KeysMatch (mapInsert m v.id v) := by
  intro kv hkv
  rcases mem_mapInsert m v.id v kv hkv with h1 | h1
  · rw [h1]
  · exact h kv h1

theorem mlook_delete (m : List (String × FenceItem)) (k k' : String) :
    mlook (mapDelete m k) k' = if k' = k then none else mlook m k' := by
  induction m with
  | nil => by_cases h : k' = k <;> simp [mapDelete, mlook, h]
  | cons hd rest ih =>
    by_cases h : hd.1 = k
    · rw [show mapDelete (hd :: rest) k = mapDelete rest k from by
        simp [mapDelete, List.filter_cons, h]]
      rw [ih]
      by_cases h2 : k' = k
      · rw [if_pos h2, if_pos h2]
      · rw [if_neg h2, if_neg h2, mlook_cons_of_ne (fun hh => h2 ((h ▸ hh : k = k')).symm)]
    · rw [show mapDelete (hd :: rest) k = hd :: mapDelete rest k from by
        simp [mapDelete, List.filter_cons, h]]
      by_cases h2 : hd.1 = k'
      · have hk : ¬ (k' = k) := fun hh => h (h2.trans hh)
        rw [mlook_cons_of_eq h2, if_neg hk, mlook_cons_of_eq h2]
      · rw [mlook_cons_of_ne h2, ih]
        by_cases h3 : k' = k
        · rw [if_pos h3, if_pos h3]
        · rw [if_neg h3, if_neg h3, mlook_cons_of_ne h2]

theorem keysMatch_delete (m : List (String × FenceItem)) (k : String)
    (h : KeysMatch m) : KeysMatch (mapDelete m k) :=
  fun kv hkv => h kv (List.mem_of_mem_filter hkv)

theorem nodup_keys_delete (m : List (String × FenceItem)) (k : String)
    (h : (keysOf m).Nodup) : (keysOf (mapDelete m k)).Nodup :=
  h.sublist (List.Sublist.map _ (List.filter_sublist m))

/-- With unique keys, `find?` at a member's key returns that member. -/
theorem find?_of_mem_nodup (m : List (String × FenceItem)) (kv : String × FenceItem)
    (hmem : kv ∈ m) (hnd : (keysOf m).Nodup) : m.find? (·.1 = kv.1) = some kv := by
  induction m with
  | nil => simp at hmem
  | cons hd rest ih =>
    have hnd' : hd.1 ∉ keysOf rest ∧ (keysOf rest).Nodup := by
      simpa [keysOf] using hnd
    rcases List.mem_cons.mp hmem with h | h
    · subst h
      exact List.find?_cons_of_pos _ (by simp)
    · have hne : ¬ (hd.1 = kv.1) := by
        intro he
        exact hnd'.1 (he ▸ List.mem_map_of_mem _ h)
      rw [List.find?_cons_of_neg _ (by simpa using hne)]
      exact ih h hnd'.2

/-- With unique keys and keys matching ids, a fence is among the map's
values exactly when looking up its id yields it. -/
theorem values_mem_iff (m : List (String × FenceItem)) (g : FenceItem)
    (hnd : (keysOf m).Nodup) (hkm : KeysMatch m) :
    g ∈ m.map (·.2) ↔ mlook m g.id = some g := by
  constructor
  · intro hg
    obtain ⟨kv, hkv, hv⟩ := List.mem_map.mp hg
    have hk : kv.1 = g.id := by rw [hkm kv hkv, hv]
    have := find?_of_mem_nodup m kv hkv hnd
    rw [hk] at this
    simp [mlook, this, hv]
  · intro hl
    simp only [mlook, Option.map_eq_some'] at hl
    obtain ⟨kv, hkv, hv⟩ := hl
    exact hv ▸ List.mem_map_of_mem _ (List.mem_of_find?_eq_some hkv)

/-- `find?` by id over a fence list with unique ids returns a member at
its own id. -/
theorem find?_fence_of_mem_nodup (fs : List FenceItem) (g : FenceItem)
    (hmem : g ∈ fs) (hnd : (fs.map (·.id)).Nodup) : fs.find? (·.id = g.id) = some g := by
  induction fs with
  | nil => simp at hmem
  | cons hd rest ih =>
    have hnd' : hd.id ∉ rest.map (·.id) ∧ (rest.map (·.id)).Nodup := by simpa using hnd
    rcases List.mem_cons.mp hmem with h | h
    · subst h
      exact List.find?_cons_of_pos _ (by simp)
    · have hne : ¬ (hd.id = g.id) := fun he => hnd'.1 (he ▸ List.mem_map_of_mem _ h)
      rw [List.find?_cons_of_neg _ (by simpa using hne)]
      exact ih h hnd'.2

theorem find?_id_eq_none (fs : List FenceItem) (k : String) :
    fs.find? (·.id = k) = none ↔ k ∉ fs.map (·.id) := by
  rw [List.find?_eq_none]
  constructor
  · intro h hk
    obtain ⟨f, hf, hfk⟩ := List.mem_map.mp hk
    exact h f hf (by simpa using hfk)
  · intro h f hf hp
    have hf2 : f.id = k := by simpa using hp
    exact h (by rw [← hf2]; exact List.mem_map_of_mem _ hf)

/-- The map `ApplyDelta` folds out of the existing fences: lookups are
`find?` by id (unique-ids case). -/
theorem mlook_buildMap (E : List FenceItem) (hE : (E.map (·.id)).Nodup) (k : String) :
    mlook (E.foldl (fun m f => mapInsert m f.id f) []) k = E.find? (·.id = k) := by
  suffices h : ∀ (E : List FenceItem) (m), (E.map (·.id)).Nodup →
      mlook (E.foldl (fun m f => mapInsert m f.id f) m) k =
        match E.find? (·.id = k) with
        | some f => some f
        | none => mlook m k by
    rw [h E [] hE]
    cases E.find? (·.id = k) <;> rfl
  intro E
  induction E with
  | nil => intro m _; simp
  | cons f rest ih =>
    intro m hnd
    have hnd' : f.id ∉ rest.map (·.id) ∧ (rest.map (·.id)).Nodup := by simpa using hnd
    rw [List.foldl_cons, ih _ hnd'.2]
    by_cases hk : f.id = k
    · rw [List.find?_cons_of_pos _ (by simpa using hk)]
      rw [(find?_id_eq_none rest k).mpr (hk ▸ hnd'.1)]
      rw [mlook_insert, if_pos hk.symm]
    · rw [List.find?_cons_of_neg _ (by simpa using hk)]
      cases hf : rest.find? (·.id = k)
      · rw [mlook_insert, if_neg (fun hh => hk hh.symm)]
      · rfl

theorem nodup_keys_buildMap (E : List FenceItem) :
    ∀ m, (keysOf m).Nodup → (keysOf (E.foldl (fun m f => mapInsert m f.id f) m)).Nodup := by
  induction E with
  | nil => intro m h; simpa using h
  | cons f rest ih => intro m h; exact ih _ (nodup_keys_insert m f.id f h)

theorem keysMatch_buildMap (E : List FenceItem) :
    ∀ m, KeysMatch m → KeysMatch (E.foldl (fun m f => mapInsert m f.id f) m) := by
  induction E with
  | nil => intro m h; simpa using h
  | cons f rest ih => intro m h; exact ih _ (keysMatch_insert m f h)

theorem mlook_deleteAll (ks : List String) :
    ∀ m k, mlook (ks.foldl mapDelete m) k = if k ∈ ks then none else mlook m k := by
  induction ks with
  | nil => intro m k; simp
  | cons k0 rest ih =>
    intro m k
    rw [List.foldl_cons, ih]
    by_cases h0 : k = k0
    · simp [h0, mlook_delete]
    · by_cases h1 : k ∈ rest <;> simp [h0, h1, mlook_delete]

theorem nodup_keys_deleteAll (ks : List String) :
    ∀ m, (keysOf m).Nodup → (keysOf (ks.foldl mapDelete m)).Nodup := by
  induction ks with
  | nil => intro m h; simpa using h
  | cons k0 rest ih => intro m h; exact ih _ (nodup_keys_delete m k0 h)

theorem keysMatch_deleteAll (ks : List String) :
    ∀ m, KeysMatch m → KeysMatch (ks.foldl mapDelete m) := by
  induction ks with
  | nil => intro m h; simpa using h
  | cons k0 rest ih => intro m h; exact ih _ (keysMatch_delete m k0 h)

/-- A successful `Added` loop forces every added id to have been absent,
and produces the map that reads added fences first. -/
theorem addAll_ok_char (fs : List FenceItem) :
    ∀ (m m' : List (String × FenceItem)), (fs.map (·.id)).Nodup → addAll fs m = .ok m' →
    (∀ f ∈ fs, mlook m f.id = none) ∧
    ∀ k, mlook m' k = match fs.find? (·.id = k) with
      | some f => some f
      | none => mlook m k := by
  induction fs with
  | nil =>
    intro m m' _ hok
    refine ⟨by simp, fun k => ?_⟩
    simp only [addAll, Except.ok.injEq] at hok
    subst hok
    simp
  | cons f rest ih =>
    intro m m' hnd hok
    have hnd' : f.id ∉ rest.map (·.id) ∧ (rest.map (·.id)).Nodup := by simpa using hnd
    by_cases hh : mapHas m f.id
    · simp [addAll, hh] at hok
    · rw [show addAll (f :: rest) m = addAll rest (mapInsert m f.id f) from by
        simp [addAll, hh]] at hok
      have h0 : mlook m f.id = none := by
        cases he : mlook m f.id with
        | none => rfl
        | some v => exact absurd (by rw [mapHas_isSome, he]; rfl) hh
      obtain ⟨hall, hchar⟩ := ih _ _ hnd'.2 hok
      refine ⟨?_, fun k => ?_⟩
      · intro g hg
        rcases List.mem_cons.mp hg with h | h
        · subst h; exact h0
        · have := hall g h
          rwa [mlook_insert, if_neg (fun hh2 =>
            hnd'.1 (by rw [← hh2]; exact List.mem_map_of_mem _ h))] at this
      · rw [hchar k]
        by_cases hk : f.id = k
        · rw [List.find?_cons_of_pos _ (by simpa using hk)]
          rw [(find?_id_eq_none rest k).mpr (hk ▸ hnd'.1)]
          rw [mlook_insert, if_pos hk.symm]
        · rw [List.find?_cons_of_neg _ (by simpa using hk)]
          cases hf : rest.find? (·.id = k)
          · rw [mlook_insert, if_neg (fun hh2 => hk hh2.symm)]
          · rfl

/-- When every added id is absent, the `Added` loop succeeds. -/
theorem addAll_ok_exists (fs : List FenceItem) :
    ∀ m, (fs.map (·.id)).Nodup → (∀ f ∈ fs, mlook m f.id = none) →
    ∃ m', addAll fs m = .ok m' := by
  induction fs with
  | nil => intro m _ _; exact ⟨m, rfl⟩
  | cons f rest ih =>
    intro m hnd hall
    have hnd' : f.id ∉ rest.map (·.id) ∧ (rest.map (·.id)).Nodup := by simpa using hnd
    have h0 : mlook m f.id = none := hall f (by simp)
    have hh : ¬ mapHas m f.id = true := by rw [mapHas_isSome, h0]; simp
    rw [show addAll (f :: rest) m = addAll rest (mapInsert m f.id f) from by
      simp [addAll, hh]]
    refine ih _ hnd'.2 (fun g hg => ?_)
    rw [mlook_insert, if_neg (fun hh2 => hnd'.1 (by rw [← hh2]; exact List.mem_map_of_mem _ hg))]
    exact hall g (by simp [hg])

theorem addAll_preserves (fs : List FenceItem) :
    ∀ m m', addAll fs m = .ok m' → (keysOf m).Nodup → KeysMatch m →
    (keysOf m').Nodup ∧ KeysMatch m' := by
  induction fs with
  | nil =>
    intro m m' hok h1 h2
    simp only [addAll, Except.ok.injEq] at hok
    subst hok
    exact ⟨h1, h2⟩
  | cons f rest ih =>
    intro m m' hok h1 h2
    by_cases hh : mapHas m f.id
    · simp [addAll, hh] at hok
    · rw [show addAll (f :: rest) m = addAll rest (mapInsert m f.id f) from by
        simp [addAll, hh]] at hok
      exact ih _ _ hok (nodup_keys_insert m f.id f h1) (keysMatch_insert m f h2)

/-- A successful `Updated` loop forces every updated id to have been
present, and replaces lookups at updated ids. -/
theorem updateAll_ok_char (fs : List FenceItem) :
    ∀ (m m' : List (String × FenceItem)), (fs.map (·.id)).Nodup → updateAll fs m = .ok m' →
    (∀ f ∈ fs, mlook m f.id ≠ none) ∧
    ∀ k, mlook m' k = match fs.find? (·.id = k) with
      | some f => some f
      | none => mlook m k := by
  induction fs with
  | nil =>
    intro m m' _ hok
    refine ⟨by simp, fun k => ?_⟩
    simp only [updateAll, Except.ok.injEq] at hok
    subst hok
    simp
  | cons f rest ih =>
    intro m m' hnd hok
    have hnd' : f.id ∉ rest.map (·.id) ∧ (rest.map (·.id)).Nodup := by simpa using hnd
    by_cases hh : mapHas m f.id
    · rw [show updateAll (f :: rest) m = updateAll rest (mapInsert m f.id f) from by
        simp [updateAll, hh]] at hok
      have h0 : mlook m f.id ≠ none := by
        rw [mapHas_isSome] at hh
        exact fun he => by simp [he] at hh
      obtain ⟨hall, hchar⟩ := ih _ _ hnd'.2 hok
      refine ⟨?_, fun k => ?_⟩
      · intro g hg
        rcases List.mem_cons.mp hg with h | h
        · subst h; exact h0
        · have := hall g h
          rwa [mlook_insert, if_neg (fun hh2 =>
            hnd'.1 (by rw [← hh2]; exact List.mem_map_of_mem _ h))] at this
      · rw [hchar k]
        by_cases hk : f.id = k
        · rw [List.find?_cons_of_pos _ (by simpa using hk)]
          rw [(find?_id_eq_none rest k).mpr (hk ▸ hnd'.1)]
          rw [mlook_insert, if_pos hk.symm]
        · rw [List.find?_cons_of_neg _ (by simpa using hk)]
          cases hf : rest.find? (·.id = k)
          · rw [mlook_insert, if_neg (fun hh2 => hk hh2.symm)]
          · rfl
    · simp [updateAll, hh] at hok

/-- When every updated id is present, the `Updated` loop succeeds. -/
theorem updateAll_ok_exists (fs : List FenceItem) :
    ∀ m, (fs.map (·.id)).Nodup → (∀ f ∈ fs, mlook m f.id ≠ none) →
    ∃ m', updateAll fs m = .ok m' := by
  induction fs with
  | nil => intro m _ _; exact ⟨m, rfl⟩
  | cons f rest ih =>
    intro m hnd hall
    have hnd' : f.id ∉ rest.map (·.id) ∧ (rest.map (·.id)).Nodup := by simpa using hnd
    have h0 : mlook m f.id ≠ none := hall f (by simp)
    have hh : mapHas m f.id = true := by
      rw [mapHas_isSome]
      cases he : mlook m f.id
      · exact absurd he h0
      · rfl
    rw [show updateAll (f :: rest) m = updateAll rest (mapInsert m f.id f) from by
      simp [updateAll, hh]]
    refine ih _ hnd'.2 (fun g hg => ?_)
    rw [mlook_insert, if_neg (fun hh2 => hnd'.1 (by rw [← hh2]; exact List.mem_map_of_mem _ hg))]
    exact hall g (by simp [hg])

theorem updateAll_preserves (fs : List FenceItem) :
    ∀ m m', updateAll fs m = .ok m' → (keysOf m).Nodup → KeysMatch m →
    (keysOf m').Nodup ∧ KeysMatch m' := by
  induction fs with
  | nil =>
    intro m m' hok h1 h2
    simp only [updateAll, Except.ok.injEq] at hok
    subst hok
    exact ⟨h1, h2⟩
  | cons f rest ih =>
    intro m m' hok h1 h2
    by_cases hh : mapHas m f.id
    · rw [show updateAll (f :: rest) m = updateAll rest (mapInsert m f.id f) from by
        simp [updateAll, hh]] at hok
      exact ih _ _ hok (nodup_keys_insert m f.id f h1) (keysMatch_insert m f h2)
    · simp [updateAll, hh] at hok

/-- Claim C10 (corrected): with unique ids per list, `ApplyDelta`
succeeds exactly when no added id is still present after the removals
and every updated id is present after removals and additions; a
successful result holds exactly the updated fences, the added fences
not overridden by an update, and the untouched survivors of the
existing list. -/
theorem applyDelta_spec (E : List FenceItem) (d : FenceDelta)
    (hE : (E.map (·.id)).Nodup) (hA : (d.added.map (·.id)).Nodup)
    (hU : (d.updated.map (·.id)).Nodup) :
    ((∃ R, applyDelta E d = .ok R) ↔
      ((∀ f ∈ d.added, ¬ (f.id ∈ E.map (·.id) ∧ f.id ∉ d.removedIDs)) ∧
       (∀ f ∈ d.updated, (f.id ∈ E.map (·.id) ∧ f.id ∉ d.removedIDs) ∨
         f.id ∈ d.added.map (·.id)))) ∧
    (∀ R, applyDelta E d = .ok R → ∀ g,
      (g ∈ R ↔ g ∈ d.updated ∨
        (g ∈ d.added ∧ g.id ∉ d.updated.map (·.id)) ∨
        (g ∈ E ∧ g.id ∉ d.removedIDs ∧ g.id ∉ d.added.map (·.id) ∧
          g.id ∉ d.updated.map (·.id)))) := by
  set m0 := E.foldl (fun m f => mapInsert m f.id f) [] with hm0def
  set m1 := d.removedIDs.foldl mapDelete m0 with hm1def
  have happ : applyDelta E d =
      match addAll d.added m1 with
      | .error e => .error e
      | .ok afterAdd =>
        match updateAll d.updated afterAdd with
        | .error e => .error e
        | .ok final => .ok (final.map (·.2)) := rfl
  have hm1look : ∀ k, mlook m1 k =
      if k ∈ d.removedIDs then none else E.find? (·.id = k) := by
    intro k
    rw [hm1def, mlook_deleteAll, hm0def, mlook_buildMap E hE k]
  have hm1none : ∀ k, (mlook m1 k = none ↔ ¬ (k ∈ E.map (·.id) ∧ k ∉ d.removedIDs)) := by
    intro k
    rw [hm1look k]
    by_cases hr : k ∈ d.removedIDs
    · simp [hr]
    · simp [hr, find?_id_eq_none]
  have hm1nd : (keysOf m1).Nodup := by
    rw [hm1def]
    exact nodup_keys_deleteAll _ _ (by rw [hm0def]; exact nodup_keys_buildMap E [] (by simp [keysOf]))
  have hm1km : KeysMatch m1 := by
    rw [hm1def]
    refine keysMatch_deleteAll _ _ ?_
    rw [hm0def]
    exact keysMatch_buildMap E [] (by intro kv hkv; simp at hkv)
  constructor
  · constructor
    · rintro ⟨R, hok⟩
      rw [happ] at hok
      cases haa : addAll d.added m1 with
      | error e => rw [haa] at hok; simp at hok
      | ok m2 =>
        rw [haa] at hok
        have hok2 : (match updateAll d.updated m2 with
            | Except.error e => Except.error e
            | Except.ok final => Except.ok (final.map (·.2))) = Except.ok R := hok
        obtain ⟨hallA, hcharA⟩ := addAll_ok_char d.added m1 m2 hA haa
        cases hua : updateAll d.updated m2 with
        | error e => rw [hua] at hok2; simp at hok2
        | ok m3 =>
          obtain ⟨hallU, _⟩ := updateAll_ok_char d.updated m2 m3 hU hua
          constructor
          · exact fun f hf => (hm1none f.id).mp (hallA f hf)
          · intro f hf
            have hne := hallU f hf
            rw [hcharA f.id] at hne
            cases hfa : d.added.find? (·.id = f.id) with
            | some g =>
              have hgid : g.id = f.id := by simpa using List.find?_some hfa
              refine Or.inr ?_
              rw [← hgid]
              exact List.mem_map_of_mem _ (List.mem_of_find?_eq_some hfa)
            | none =>
              rw [hfa] at hne
              left
              by_contra hS
              exact hne ((hm1none f.id).mpr hS)
    · rintro ⟨hA2, hB2⟩
      have hallA : ∀ f ∈ d.added, mlook m1 f.id = none :=
        fun f hf => (hm1none f.id).mpr (hA2 f hf)
      obtain ⟨m2, haa⟩ := addAll_ok_exists d.added m1 hA hallA
      obtain ⟨_, hcharA⟩ := addAll_ok_char d.added m1 m2 hA haa
      have hallU : ∀ f ∈ d.updated, mlook m2 f.id ≠ none := by
        intro f hf
        rw [hcharA f.id]
        rcases hB2 f hf with hS | hAdd
        · cases hfa : d.added.find? (·.id = f.id) with
          | some g => simp
          | none => exact fun hc => ((hm1none f.id).mp hc) hS
        · cases hfa : d.added.find? (·.id = f.id) with
          | some g => simp
          | none => exact absurd ((find?_id_eq_none _ _).mp hfa) (by simpa using hAdd)
      obtain ⟨m3, hua⟩ := updateAll_ok_exists d.updated m2 hU hallU
      refine ⟨m3.map (·.2), ?_⟩
      rw [happ, haa]
      show (match updateAll d.updated m2 with
          | Except.error e => Except.error e
          | Except.ok final => Except.ok (final.map Prod.snd)) = _
      rw [hua]
  · intro R hok g
    rw [happ] at hok
    cases haa : addAll d.added m1 with
    | error e => rw [haa] at hok; simp at hok
    | ok m2 =>
      rw [haa] at hok
      have hok2 : (match updateAll d.updated m2 with
          | Except.error e => Except.error e
          | Except.ok final => Except.ok (final.map (·.2))) = Except.ok R := hok
      cases hua : updateAll d.updated m2 with
      | error e => rw [hua] at hok2; simp at hok2
      | ok m3 =>
        rw [hua] at hok2
        simp only [Except.ok.injEq] at hok2
        subst hok2
        obtain ⟨hallA, hcharA⟩ := addAll_ok_char d.added m1 m2 hA haa
        obtain ⟨hallU, hcharU⟩ := updateAll_ok_char d.updated m2 m3 hU hua
        have hp2 := addAll_preserves d.added m1 m2 haa hm1nd hm1km
        have hp3 := updateAll_preserves d.updated m2 m3 hua hp2.1 hp2.2
        rw [values_mem_iff m3 g hp3.1 hp3.2]
        rw [hcharU g.id, hcharA g.id, hm1look g.id]
        cases hfu : d.updated.find? (·.id = g.id) with
        | some f =>
          have hgid : f.id = g.id := by simpa using List.find?_some hfu
          have hmemf : f ∈ d.updated := List.mem_of_find?_eq_some hfu
          have hinU : g.id ∈ d.updated.map (·.id) := by
            rw [← hgid]; exact List.mem_map_of_mem _ hmemf
          constructor
          · intro he
            have hfg : f = g := by simpa using he
            exact Or.inl (hfg ▸ hmemf)
          · rintro (hg | ⟨_, hnotU⟩ | ⟨_, _, _, hnotU⟩)
            · have := find?_fence_of_mem_nodup d.updated g hg hU
              rw [hfu] at this
              injection this with hh
              rw [hh]
            · exact absurd hinU hnotU
            · exact absurd hinU hnotU
        | none =>
          have hnotU : g.id ∉ d.updated.map (·.id) := (find?_id_eq_none _ _).mp hfu
          cases hfa : d.added.find? (·.id = g.id) with
          | some f =>
            have hgid : f.id = g.id := by simpa using List.find?_some hfa
            have hmemf : f ∈ d.added := List.mem_of_find?_eq_some hfa
            have hinA : g.id ∈ d.added.map (·.id) := by
              rw [← hgid]; exact List.mem_map_of_mem _ hmemf
            constructor
            · intro he
              have hfg : f = g := by simpa using he
              exact Or.inr (Or.inl ⟨hfg ▸ hmemf, hnotU⟩)
            · rintro (hg | ⟨hg, _⟩ | ⟨_, _, hnotA, _⟩)
              · exact absurd (List.mem_map_of_mem (·.id) hg) hnotU
              · have := find?_fence_of_mem_nodup d.added g hg hA
                rw [hfa] at this
                injection this with hh
                rw [hh]
              · exact absurd hinA hnotA
          | none =>
            have hnotA : g.id ∉ d.added.map (·.id) := (find?_id_eq_none _ _).mp hfa
            by_cases hr : g.id ∈ d.removedIDs
            · rw [if_pos hr]
              constructor
              · intro he; simp at he
              · rintro (hg | ⟨hg, _⟩ | ⟨_, hnr, _, _⟩)
                · exact absurd (List.mem_map_of_mem (·.id) hg) hnotU
                · exact absurd (List.mem_map_of_mem (·.id) hg) hnotA
                · exact absurd hr hnr
            · rw [if_neg hr]
              constructor
              · intro he
                exact Or.inr (Or.inr ⟨List.mem_of_find?_eq_some he, hr, hnotA, hnotU⟩)
              · rintro (hg | ⟨hg, _⟩ | ⟨hg, _, _, _⟩)
                · exact absurd (List.mem_map_of_mem (·.id) hg) hnotU
                · exact absurd (List.mem_map_of_mem (·.id) hg) hnotA
                · exact find?_fence_of_mem_nodup E g hg hE

/-- Claim C10, witness: removing the only existing fence and adding a
fresh one succeeds. -/
theorem applyDelta_spec_witness :
    ∃ R, applyDelta [{ id := "e1", priority := 1 }]
      { added := [{ id := "e1", priority := 2 }], removedIDs := ["e1"], updated := [] } =
      .ok R :=
  ((applyDelta_spec [{ id := "e1", priority := 1 }]
    { added := [{ id := "e1", priority := 2 }], removedIDs := ["e1"], updated := [] }
    (by decide) (by decide) (by decide)).1).mpr (by decide)

/-! ## Store mutation sequences (`pkg/storage/storage.go`)

Each externally visible mutation runs inside one SQL transaction, so a
failed operation (constraint violation, missing row, or database
fault) rolls back and leaves the visible state unchanged; `applyOp`
reflects that by keeping the old state on error. -/

/-- An externally visible store mutation, with its fault flag. -/
inductive MutOp where
  | add (fault : Bool) (f : FenceItem)
  | update (fault : Bool) (f : FenceItem)
  | delete (fault : Bool) (idv : String)
  deriving DecidableEq, Repr

/-- The visible state after one mutation: a failing operation rolls its
transaction back, so the state is unchanged. -/
def applyOp (op : MutOp) (s : StoreState) : StoreState :=
  match op with
  | .add b f => ((addFence b f s).toOption).getD s
  | .update b f => ((updateFence b f s).toOption).getD s
  | .delete b i => ((deleteFence b i s).toOption).getD s

/-- The visible state after a sequence of mutations. -/
def applyOps (ops : List MutOp) (s : StoreState) : StoreState :=
  ops.foldl (fun s op => applyOp op s) s

/-- The storage invariant: rowids and fence ids are unique, every rowid
is below the next fresh rowid, and the R-Tree rows are exactly the
bounding boxes of the fence rows, keyed by rowid. -/
def Inv (s : StoreState) : Prop :=
  (s.table.map (·.rowid)).Nodup ∧
  (s.table.map (·.fence.id)).Nodup ∧
  (∀ r ∈ s.table, r.rowid < s.nextRow) ∧
  s.fenceIndex = s.table.map (fun r => idxOf r.rowid r.fence)

instance decInv (s : StoreState) : Decidable (Inv s) := by
  unfold Inv; infer_instance

/-- One-to-one correspondence between fence rows and R-Tree entries:
each side matches exactly one entry on the other by rowid, and the
entry matching a fence row is that fence's bounding box. -/
def Corresponds (s : StoreState) : Prop :=
  (∀ r ∈ s.table, ∃! e, e ∈ s.fenceIndex ∧ e.rowid = r.rowid) ∧
  (∀ e ∈ s.fenceIndex, ∃! r, r ∈ s.table ∧ r.rowid = e.rowid) ∧
  (∀ r ∈ s.table, idxOf r.rowid r.fence ∈ s.fenceIndex)

theorem row_key_iff (s : StoreState)
    (h1 : (s.table.map (·.rowid)).Nodup) (h2 : (s.table.map (·.fence.id)).Nodup)
    (row : Row) (hrow : row ∈ s.table) (r : Row) (hr : r ∈ s.table) :
    (r.rowid = row.rowid ↔ r.fence.id = row.fence.id) := by
  constructor
  · intro h
    rw [List.inj_on_of_nodup_map h1 hr hrow h]
  · intro h
    rw [List.inj_on_of_nodup_map h2 hr hrow h]

theorem addFence_inv (b : Bool) (f : FenceItem) (s s' : StoreState)
    (h : Inv s) (hok : addFence b f s = .ok s') : Inv s' := by
  obtain ⟨h1, h2, h3, h4⟩ := h
  cases b with
  | true => simp [addFence] at hok
  | false =>
    by_cases hdup : s.table.any (·.fence.id = f.id)
    · simp [addFence, hdup] at hok
    · have hs' : { s with
          table := s.table ++ [⟨s.nextRow, f⟩]
          fenceIndex := s.fenceIndex ++ [idxOf s.nextRow f]
          nextRow := s.nextRow + 1 } = s' := by
        simpa [addFence, hdup] using hok
      subst hs'
      have hfresh : s.nextRow ∉ s.table.map (·.rowid) := by
        intro hmem
        obtain ⟨r, hr, hrw⟩ := List.mem_map.mp hmem
        exact absurd (hrw ▸ h3 r hr) (lt_irrefl _)
      have hnewid : f.id ∉ s.table.map (·.fence.id) := by
        intro hmem
        obtain ⟨r, hr, hrw⟩ := List.mem_map.mp hmem
        exact hdup (List.any_eq_true.mpr ⟨r, hr, by simp [hrw]⟩)
      refine ⟨?_, ?_, ?_, ?_⟩
      · rw [List.map_append, List.nodup_append]
        exact ⟨h1, by simp, by intro a ha hb; simp at hb; exact hfresh (hb ▸ ha)⟩
      · rw [List.map_append, List.nodup_append]
        exact ⟨h2, by simp, by intro a ha hb; simp at hb; exact hnewid (hb ▸ ha)⟩
      · intro r hr
        rcases List.mem_append.mp hr with hr | hr
        · exact Nat.lt_succ_of_lt (h3 r hr)
        · simp at hr
          rw [hr]
          exact Nat.lt_succ_self _
      · simp [h4]

theorem updateFence_inv (b : Bool) (f : FenceItem) (s s' : StoreState)
    (h : Inv s) (hok : updateFence b f s = .ok s') : Inv s' := by
  obtain ⟨h1, h2, h3, h4⟩ := h
  cases b with
  | true => simp [updateFence] at hok
  | false =>
    cases hfind : s.table.find? (·.fence.id = f.id) with
    | none => simp [updateFence, hfind] at hok
    | some row =>
      have hrow : row ∈ s.table := List.mem_of_find?_eq_some hfind
      have hrowid : row.fence.id = f.id := by simpa using List.find?_some hfind
      have hs' : { s with
          table := s.table.map (fun r => if r.fence.id = f.id then ⟨r.rowid, f⟩ else r)
          fenceIndex := s.fenceIndex.map
            (fun e => if e.rowid = row.rowid then idxOf e.rowid f else e) } = s' := by
        simpa [updateFence, hfind] using hok
      subst hs'
      have hkey : ∀ r ∈ s.table, (r.rowid = row.rowid ↔ r.fence.id = f.id) := by
        intro r hr
        rw [← hrowid]
        exact row_key_iff s h1 h2 row hrow r hr
      refine ⟨?_, ?_, ?_, ?_⟩
      · rw [List.map_map]
        have : s.table.map ((fun r : Row => r.rowid) ∘
            (fun r => if r.fence.id = f.id then ⟨r.rowid, f⟩ else r)) =
            s.table.map (·.rowid) := by
          apply List.map_congr_left
          intro r _
          by_cases hid : r.fence.id = f.id <;> simp [hid]
        rw [this]
        exact h1
      · rw [List.map_map]
        have : s.table.map ((fun r : Row => r.fence.id) ∘
            (fun r => if r.fence.id = f.id then ⟨r.rowid, f⟩ else r)) =
            s.table.map (·.fence.id) := by
          apply List.map_congr_left
          intro r _
          by_cases hid : r.fence.id = f.id <;> simp [hid]
        rw [this]
        exact h2
      · intro r hr
        obtain ⟨r0, hr0, hr0e⟩ := List.mem_map.mp hr
        have : r.rowid = r0.rowid := by
          rw [← hr0e]
          by_cases hid : r0.fence.id = f.id <;> simp [hid]
        rw [this]
        exact h3 r0 hr0
      · rw [h4, List.map_map, List.map_map]
        apply List.map_congr_left
        intro r hr
        by_cases hid : r.fence.id = f.id
        · have hrw : r.rowid = row.rowid := (hkey r hr).mpr hid
          simp [idxOf, hid, hrw]
        · have hrw : ¬ r.rowid = row.rowid := fun hc => hid ((hkey r hr).mp hc)
          simp [idxOf, hid, hrw]

theorem deleteFence_inv (b : Bool) (idv : String) (s s' : StoreState)
    (h : Inv s) (hok : deleteFence b idv s = .ok s') : Inv s' := by
  obtain ⟨h1, h2, h3, h4⟩ := h
  cases b with
  | true => simp [deleteFence] at hok
  | false =>
    cases hfind : s.table.find? (·.fence.id = idv) with
    | none => simp [deleteFence, hfind] at hok
    | some row =>
      have hrow : row ∈ s.table := List.mem_of_find?_eq_some hfind
      have hrowid : row.fence.id = idv := by simpa using List.find?_some hfind
      have hs' : { s with
          table := s.table.filter (·.fence.id ≠ idv)
          fenceIndex := s.fenceIndex.filter (·.rowid ≠ row.rowid) } = s' := by
        simpa [deleteFence, hfind] using hok
      subst hs'
      have hkey : ∀ r ∈ s.table, (r.rowid = row.rowid ↔ r.fence.id = idv) := by
        intro r hr
        rw [← hrowid]
        exact row_key_iff s h1 h2 row hrow r hr
      refine ⟨?_, ?_, ?_, ?_⟩
      · exact List.Nodup.sublist (List.Sublist.map _ (List.filter_sublist _)) h1
      · exact List.Nodup.sublist (List.Sublist.map _ (List.filter_sublist _)) h2
      · exact fun r hr => h3 r (List.mem_of_mem_filter hr)
      · have hfe : ((s.table.map fun r => idxOf r.rowid r.fence).filter
            fun e => e.rowid ≠ row.rowid) =
            ((s.table.filter fun r => r.fence.id ≠ idv).map
              fun r => idxOf r.rowid r.fence) := by
          rw [List.filter_map]
          apply congrArg
          apply List.filter_congr
          intro r hr
          simp only [Function.comp, idxOf]
          exact decide_eq_decide.mpr (not_congr (hkey r hr))
        show (s.fenceIndex.filter fun e => e.rowid ≠ row.rowid) = _
        rw [h4]
        exact hfe

theorem applyOp_inv (op : MutOp) (s : StoreState) (h : Inv s) : Inv (applyOp op s) := by
  cases op with
  | add b f =>
    cases hr : addFence b f s with
    | error e => simpa [applyOp, hr] using h
    | ok s' => simpa [applyOp, hr] using addFence_inv b f s s' h hr
  | update b f =>
    cases hr : updateFence b f s with
    | error e => simpa [applyOp, hr] using h
    | ok s' => simpa [applyOp, hr] using updateFence_inv b f s s' h hr
  | delete b i =>
    cases hr : deleteFence b i s with
    | error e => simpa [applyOp, hr] using h
    | ok s' => simpa [applyOp, hr] using deleteFence_inv b i s s' h hr

theorem applyOps_inv (ops : List MutOp) : ∀ s, Inv s → Inv (applyOps ops s) := by
  induction ops with
  | nil => exact fun _ h => h
  | cons op rest ih => exact fun s h => ih (applyOp op s) (applyOp_inv op s h)

theorem inv_corresponds (s : StoreState) (h : Inv s) : Corresponds s := by
  obtain ⟨h1, _, _, h4⟩ := h
  refine ⟨?_, ?_, ?_⟩
  · intro r hr
    refine ⟨idxOf r.rowid r.fence, ⟨by rw [h4]; exact List.mem_map_of_mem _ hr, rfl⟩, ?_⟩
    rintro e ⟨he, herow⟩
    rw [h4] at he
    obtain ⟨r', hr', hre⟩ := List.mem_map.mp he
    subst hre
    have : r' = r := List.inj_on_of_nodup_map h1 hr' hr herow
    rw [this]
  · intro e he
    rw [h4] at he
    obtain ⟨r, hr, hre⟩ := List.mem_map.mp he
    refine ⟨r, ⟨hr, by rw [← hre]; simp [idxOf]⟩, ?_⟩
    rintro r' ⟨hr', hrowe⟩
    have : r'.rowid = r.rowid := by rw [hrowe, ← hre]; simp [idxOf]
    exact List.inj_on_of_nodup_map h1 hr' hr this
  · intro r hr
    rw [h4]
    exact List.mem_map_of_mem _ hr

/-- Claim C8 (confirmed): starting from a store satisfying the storage
invariant (in particular the empty store), after any sequence of
`AddFence`/`UpdateFence`/`DeleteFence` mutations — failed operations
included, since each runs in one rolled-back transaction — the fence
table and the R-Tree index are in one-to-one correspondence by rowid,
and the entry of a fence row is its bounding box. Intermediate points
of a sequence are instances (take the prefix as the sequence). -/
theorem store_mutations_keep_correspondence (ops : List MutOp) (s0 : StoreState)
    (h0 : Inv s0) :
    Inv (applyOps ops s0) ∧ Corresponds (applyOps ops s0) :=
  ⟨applyOps_inv ops s0 h0, inv_corresponds _ (applyOps_inv ops s0 h0)⟩

/-- Claim C8, witness: a sequence with successful adds, a faulted
update, a delete, a successful update, and a delete of a missing id,
from the empty store. -/
theorem store_mutations_keep_correspondence_witness :
    Inv (applyOps
      [MutOp.add false { id := "a", priority := 1 },
       MutOp.add false { id := "b", priority := 2 },
       MutOp.update true { id := "a", priority := 5 },
       MutOp.delete false "b",
       MutOp.update false { id := "a", priority := 7 },
       MutOp.delete false "zzz"] {}) ∧
    Corresponds (applyOps
      [MutOp.add false { id := "a", priority := 1 },
       MutOp.add false { id := "b", priority := 2 },
       MutOp.update true { id := "a", priority := 5 },
       MutOp.delete false "b",
       MutOp.update false { id := "a", priority := 7 },
       MutOp.delete false "zzz"] {}) :=
  store_mutations_keep_correspondence
    [MutOp.add false { id := "a", priority := 1 },
     MutOp.add false { id := "b", priority := 2 },
     MutOp.update true { id := "a", priority := 5 },
     MutOp.delete false "b",
     MutOp.update false { id := "a", priority := 7 },
     MutOp.delete false "zzz"] {} (by decide)

/-- Claim C10, counterexample: two added fences sharing an id make
`ApplyDelta` fail even though no added id is present after the
removals (the existing list is empty), so "error only when an added id
is still present after the removals" is false as stated. -/
theorem applyDelta_dup_added_cex :
    applyDelta [] { added := [{ id := "x", priority := 1 }, { id := "x", priority := 2 }] } =
      .error ("fence x already exists") ∧
    (([] : List FenceItem).map (·.id) = []) := by decide

/-! ## Concrete sync runs (claims C1 and C4)

The JSON decoder is a `SyncCodec` parameter of the embedding; the runs
below instantiate it with a decoder that succeeds and yields the given
fences — the behaviour of any snapshot whose decode succeeds. -/

/-- A codec whose snapshot decoder yields the given fences; the delta
path is unused in these runs. -/
def codecOf (fences : List FenceItem) : SyncCodec where
  loadSnapshot := fun _ => .ok fences
  readDelta := fun _ => .error ("unused")
  marshalColl := fun _ => []
  parseColl := fun _ => .error ("unused")

def c1fa0 : FenceItem := { id := "a", priority := 1 }

def c1fa1 : FenceItem := { id := "a", priority := 2 }

/-- The store before the C1 sync: the single fence `a`, priority 1. -/
def c1s0 : StoreState := (addFence false c1fa0 {}).toOption.getD {}

/-- A remote manifest of version 1 with no advertised hashes and no
delta URL (the snapshot path). -/
def c1m : Manifest := { version := 1 }

def c1net : Net := { manifest := .ok c1m, snapshot := .ok [0] }

/-- Claim C1 (code bug): `Syncer.updateStorage` begins an outer
transaction, but every store call inside it (`UpdateFence`/`AddFence`/
`SetManifest`/`SetVersion`) runs directly on the store and commits on
its own, so a sync that fails after the upsert loop keeps the loop's
fence changes.  With fault schedule [false, true] — the fence upsert
commits, the manifest write fails — the sync reports an error and both
the in-memory and the stored version remain 0, yet the stored fence
set has changed from priority-1 `a` to priority-2 `a`. -/
theorem sync_failure_leaves_changed_fences :
    (sync (codecOf [c1fa1]) c1net [false, true] { store := c1s0 }).1.error ≠ none ∧
    (sync (codecOf [c1fa1]) c1net [false, true] { store := c1s0 }).2.currentVer = 0 ∧
    (sync (codecOf [c1fa1]) c1net [false, true] { store := c1s0 }).2.store.version = 0 ∧
    listFences c1s0 = [c1fa0] ∧
    listFences (sync (codecOf [c1fa1]) c1net [false, true] { store := c1s0 }).2.store =
      [c1fa1] ∧
    c1fa1 ≠ c1fa0 := by decide

def c4stale : FenceItem := { id := "stale", priority := 5 }

def c4fresh0 : FenceItem := { id := "fresh", priority := 1 }

def c4fresh1 : FenceItem := { id := "fresh", priority := 3 }

/-- The store before the C4 sync: fences `stale` and `fresh`. -/
def c4s0 : StoreState :=
  ((addFence false c4stale {}).bind (addFence false c4fresh0)).toOption.getD {}

def c4m : Manifest := { version := 1 }

def c4net : Net := { manifest := .ok c4m, snapshot := .ok [0] }

/-- Claim C4 (code bug): a successful snapshot-path sync does not make
the store equal the decoded snapshot — `updateStorage` only upserts
the snapshot's fences and never deletes the others — so a fence
present locally but absent from the snapshot survives: syncing a store
holding `stale` and `fresh` against a snapshot holding only `fresh`
succeeds and advances the version to 1, but the store still lists
both. -/
theorem snapshot_sync_keeps_stale_fence :
    (sync (codecOf [c4fresh1]) c4net [] { store := c4s0 }).1.error = none ∧
    (sync (codecOf [c4fresh1]) c4net [] { store := c4s0 }).2.currentVer = 1 ∧
    ((listFences (sync (codecOf [c4fresh1]) c4net [] { store := c4s0 }).2.store).map (·.id)) =
      ["stale", "fresh"] := by decide

/-! ## Concrete Merkle proof run (claim C6) -/

def c6fA : FenceItem := { id := "a" }

def c6fB : FenceItem := { id := "b" }

/-- Claim C6 (code bug): proof verification is not the inverse of proof
generation — `VerifyProof` hashes each combination step twice
(`sha256.Sum256` of the incremental hash's digest) and always puts the
current hash on the left, with no side tags in the proof — so the
proof `GetProof` produces for a member of a two-fence tree fails to
verify against the tree's root hash: the "verify iff member"
equivalence is false in the member direction. -/
theorem merkle_proof_never_verifies :
    getProof (newTree [c6fA, c6fB]) "a" = .ok [(leafNode c6fB).hash] ∧
    verifyProof c6fA [(leafNode c6fB).hash] (rootHashOf (newTree [c6fA, c6fB])) = false := by
  decide

end GUL
